import Mathlib

/-!
Shallow embedding of the content-addressable object model in gufe/base.py.

Modelling conventions, stated once:

* Python values that flow through the codec are modelled by the inductive
  type GVal: None, bools, ints, strings, dicts (association lists in
  insertion order, as Python dicts preserve insertion order), lists, and
  live GufeTokenizable instances (vobj), which carry an object identity
  oid, the class tags (modname, qualname) and the shallow field list.

* The md5 digest used by tokenize and the str rendering of the normalized
  item list are external library code (hashlib, builtins), not part of
  src/.  The spec treats fingerprint collisions as negligible and only
  requires a deterministic digest, so the digest-of-rendering composite is
  idealised as injective: a token is represented by the normalized item
  list itself, and a GufeKey string by the pair of its qualname part
  and that list (constructor vkeystr / type GKeyT).

* The abstract entity contract (_to_dict, _from_dict, _defaults) is
  instantiated by its canonical implementation: _to_dict returns the
  field list, cls._from_dict rebuilds an instance from the field list,
  and _defaults is a per-class table passed as the parameter cd.

* Stateful parts (TOKENIZABLE_CLASS_REGISTRY, TOKENIZABLE_REGISTRY,
  fresh object identities) are threaded explicitly through SysState.
  A weakref is an Option GVal: some o is a live reference, none a dead
  one.  Garbage collection is an external event; theorems quantify over
  the registry states it can produce.

* In-place mutation of caller-supplied dicts (copy.deepcopy, dict.pop)
  is modelled separately by a heap of mutable cells near the end of the
  file; the content layer above it is mutation-free.
-/

/-- Python values handled by the gufe codec (see module conventions above). -/
inductive GVal where
  | vnone : GVal
  | vbool : Bool → GVal
  | vint : Int → GVal
  | vstr : String → GVal
  | vdict : List (String × GVal) → GVal
  | vlist : List GVal → GVal
  | vobj : Nat → String → String → List (String × GVal) → GVal
  | vkeystr : String → List (String × GVal) → GVal

mutual

/-- Structural Boolean equality on GVal (DecidableEq cannot be derived for
this nested inductive). -/
def beqV : GVal → GVal → Bool
  | .vnone, .vnone => true
  | .vbool a, .vbool b => a == b
  | .vint a, .vint b => a == b
  | .vstr a, .vstr b => a == b
  | .vdict a, .vdict b => beqE a b
  | .vlist a, .vlist b => beqL a b
  | .vobj i m q f, .vobj i' m' q' f' => i == i' && (m == m' && (q == q' && beqE f f'))
  | .vkeystr p d, .vkeystr p' d' => p == p' && beqE d d'
  | _, _ => false

/-- Structural Boolean equality on entry lists. -/
def beqE : List (String × GVal) → List (String × GVal) → Bool
  | [], [] => true
  | (k, v) :: r, (k', v') :: r' => k == k' && (beqV v v' && beqE r r')
  | _, _ => false

/-- Structural Boolean equality on value lists. -/
def beqL : List GVal → List GVal → Bool
  | [], [] => true
  | v :: r, v' :: r' => beqV v v' && beqL r r'
  | _, _ => false

end

mutual

theorem beqV_correct : ∀ a b : GVal, beqV a b = true ↔ a = b
  | .vnone, b => by cases b <;> simp [beqV]
  | .vbool x, b => by cases b <;> simp [beqV]
  | .vint x, b => by cases b <;> simp [beqV]
  | .vstr x, b => by cases b <;> simp [beqV]
  | .vdict a, b => by
    cases b <;> simp [beqV]
    exact beqE_correct a _
  | .vlist a, b => by
    cases b <;> simp [beqV]
    exact beqL_correct a _
  | .vobj i m q f, b => by
    cases b <;> simp [beqV]
    intro _ _ _
    exact beqE_correct f _
  | .vkeystr p d, b => by
    cases b <;> simp [beqV]
    intro _
    exact beqE_correct d _

theorem beqE_correct : ∀ a b : List (String × GVal), beqE a b = true ↔ a = b
  | [], b => by cases b <;> simp [beqE]
  | (k, v) :: r, b => by
    match b with
    | [] => simp [beqE]
    | (k', v') :: r' =>
      simp [beqE]
      rw [beqV_correct v v', beqE_correct r r']
      constructor
      · rintro ⟨h0, h1, h2⟩; exact ⟨⟨h0, h1⟩, h2⟩
      · rintro ⟨⟨h0, h1⟩, h2⟩; exact ⟨h0, h1, h2⟩

theorem beqL_correct : ∀ a b : List GVal, beqL a b = true ↔ a = b
  | [], b => by cases b <;> simp [beqL]
  | v :: r, b => by
    match b with
    | [] => simp [beqL]
    | v' :: r' =>
      simp [beqL]
      rw [beqV_correct v v', beqL_correct r r']

end

instance : DecidableEq GVal := fun a b =>
  decidable_of_iff (beqV a b = true) (beqV_correct a b)

/-- A GufeKey, idealised: the qualname part before the hyphen and the
normalized item list the md5 token injectively encodes. -/
abbrev GKeyT := String × List (String × GVal)

/-- Python exceptions raised by the code under study. -/
inductive PyErr where
  | keyError : String → PyErr
  | keyErrorGufe : GKeyT → PyErr
  | importError : String → String → PyErr
  | typeError : String → PyErr
  | attributeError : String → PyErr
  | recursionError : PyErr
deriving DecidableEq

/-- Association-list lookup, first match (a Python dict holds each key once). -/
def alookup {α β : Type} [DecidableEq α] : List (α × β) → α → Option β
  | [], _ => none
  | (k, v) :: r, x => if x = k then some v else alookup r x

/-- Python dict membership: key in d. -/
def akeymem {α β : Type} [DecidableEq α] (l : List (α × β)) (x : α) : Bool :=
  (alookup l x).isSome

/-- Python d.setdefault(k, v): insert only when the key is absent. -/
def asetdefault {α β : Type} [DecidableEq α] (l : List (α × β)) (k : α) (v : β) :
    List (α × β) :=
  if akeymem l k then l else l ++ [(k, v)]

/-- Python d[k] = v: overwrite in place when present, else append. -/
def astore {α β : Type} [DecidableEq α] (l : List (α × β)) (k : α) (v : β) :
    List (α × β) :=
  if akeymem l k then l.map (fun p => if p.1 = k then (k, v) else p) else l ++ [(k, v)]

/-- Python d.pop(k) with no default: remove the (unique) entry for k;
KeyError when absent.  Removal of the first occurrence. -/
def apop {β : Type} : List (String × β) → String → Except PyErr (β × List (String × β))
  | [], k => .error (.keyError k)
  | (k', v) :: r, k =>
    if k = k' then .ok (v, r)
    else do
      let (w, r') ← apop r k
      pure (w, (k', v) :: r')

/-- Python d.update(new): astore each entry of new in order. -/
def aupdate {α β : Type} [DecidableEq α] (l : List (α × β)) : List (α × β) → List (α × β)
  | [] => l
  | (k, v) :: rest => aupdate (astore l k v) rest

mutual

/-- Size measure for well-founded recursion over GVal trees.  Dict and
list nodes count one per node and one per element; an object node counts
two so that replacing it by its (tagged) shallow dict strictly decreases
the measure. -/
def gm : GVal → Nat
  | .vdict es => 1 + gmE es
  | .vlist xs => 1 + gmL xs
  | .vobj _ _ _ fs => 2 + gmE fs
  | _ => 0

/-- Measure of a dict entry list. -/
def gmE : List (String × GVal) → Nat
  | [] => 0
  | (_, v) :: r => 1 + gm v + gmE r

/-- Measure of a list of values. -/
def gmL : List GVal → Nat
  | [] => 0
  | v :: r => 1 + gm v + gmL r

end

theorem gm_mem_entries {k : String} {v : GVal} :
    ∀ {es : List (String × GVal)}, (k, v) ∈ es → gm v < gmE es := by
  intro es h
  induction es with
  | nil => cases h
  | cons p r ih =>
    rcases List.mem_cons.mp h with h1 | h2
    · cases h1; simp [gmE]; omega
    · have := ih h2
      simp [gmE]; omega

theorem gm_mem_list {v : GVal} :
    ∀ {xs : List GVal}, v ∈ xs → gm v < gmL xs := by
  intro xs h
  induction xs with
  | nil => cases h
  | cons w r ih =>
    rcases List.mem_cons.mp h with h1 | h2
    · cases h1; simp [gmL]; omega
    · have := ih h2
      simp [gmL]; omega

theorem gm_astore_mem {l : List (String × GVal)} {k : String} {v : GVal}
    {p : String × GVal} (h : p ∈ astore l k v) : p ∈ l ∨ p = (k, v) := by
  unfold astore at h
  split at h
  · rcases List.mem_map.mp h with ⟨q, hq, hval⟩
    by_cases hk : q.1 = k
    · simp only [hk, if_pos] at hval
      exact Or.inr hval.symm
    · simp only [hk, if_neg, not_false_iff] at hval
      exact Or.inl (hval ▸ hq)
  · rcases List.mem_append.mp h with h1 | h2
    · exact Or.inl h1
    · exact Or.inr (by simpa using h2)

theorem gm_aupdate_mem {p : String × GVal} :
    ∀ {new l : List (String × GVal)}, p ∈ aupdate l new → p ∈ l ∨ p ∈ new := by
  intro new
  induction new with
  | nil => intro l h; exact Or.inl h
  | cons q rest ih =>
    intro l h
    obtain ⟨qk, qv⟩ := q
    have := ih (l := astore l qk qv) (by simpa [aupdate] using h)
    rcases this with h1 | h2
    · rcases gm_astore_mem h1 with ha | hb
      · exact Or.inl ha
      · exact Or.inr (by simp [hb])
    · exact Or.inr (List.mem_cons_of_mem _ h2)


theorem alookup_mem {α β : Type} [DecidableEq α] {l : List (α × β)} {k : α} {v : β}
    (h : alookup l k = some v) : (k, v) ∈ l := by
  induction l with
  | nil => simp [alookup] at h
  | cons p r ih =>
    obtain ⟨pk, pv⟩ := p
    by_cases hk : k = pk
    · subst hk
      simp [alookup] at h
      simp [h]
    · simp [alookup, hk] at h
      exact List.mem_cons_of_mem _ (ih h)

theorem gm_alookup {es : List (String × GVal)} {k : String} {w : GVal}
    (h : alookup es k = some w) : gm w < gmE es :=
  gm_mem_entries (alookup_mem h)

theorem gmE_map_replace_le {k : String} {v : GVal} (hv : gm v = 0) :
    ∀ m : List (String × GVal),
      gmE (m.map (fun p => if p.1 = k then (k, v) else p)) ≤ gmE m := by
  intro m
  induction m with
  | nil => simp [gmE]
  | cons p r ih =>
    obtain ⟨pk, pv⟩ := p
    by_cases hpk : ((pk, pv) : String × GVal).1 = k
    · rw [List.map_cons, if_pos hpk]
      simp [gmE, hv]
      omega
    · rw [List.map_cons, if_neg hpk]
      simp [gmE]
      omega

theorem gmE_append_single {k : String} {v : GVal} :
    ∀ m : List (String × GVal), gmE (m ++ [(k, v)]) = gmE m + 1 + gm v := by
  intro m
  induction m with
  | nil => simp [gmE]
  | cons p r ih =>
    obtain ⟨pk, pv⟩ := p
    simp [gmE, ih]
    omega

theorem gmE_astore_le {l : List (String × GVal)} {k : String} {v : GVal}
    (hv : gm v = 0) : gmE (astore l k v) ≤ gmE l + 1 := by
  unfold astore
  split
  · exact le_trans (gmE_map_replace_le hv l) (by omega)
  · rw [gmE_append_single, hv]

/-- module_qualname (l.192-194): the two type tag entries, qualname first
as in the source dict literal. -/
def module_qualname : GVal → List (String × GVal)
  | .vobj _ m q _ => [("__qualname__", .vstr q), ("__module__", .vstr m)]
  | _ => []

/-- is_gufe_obj (l.197-198). -/
def is_gufe_obj : GVal → Bool
  | .vobj _ _ _ _ => true
  | _ => false

/-- is_gufe_dict (l.201-203). -/
def is_gufe_dict : GVal → Bool
  | .vdict es => akeymem es "__qualname__" && akeymem es "__module__"
  | _ => false

/-- is_gufe_key_dict (l.206-207). -/
def is_gufe_key_dict : GVal → Bool
  | .vdict es => akeymem es ":gufe-key:"
  | _ => false

/-- classOf: the (module, qualname) pair of a live instance, used to model
isinstance checks against self.__class__. -/
def classOf : GVal → Option (String × String)
  | .vobj _ m q _ => some (m, q)
  | _ => none

theorem gmE_module_qualname_update {fs : List (String × GVal)} {v : GVal} :
    gmE (aupdate fs (module_qualname v)) ≤ gmE fs + 2 := by
  cases v <;> simp [module_qualname, aupdate]
  case vobj oid m q f =>
    have h1 : gmE (astore fs "__qualname__" (GVal.vstr q)) ≤ gmE fs + 1 :=
      gmE_astore_le (by simp [gm])
    have h2 : gmE (astore (astore fs "__qualname__" (GVal.vstr q)) "__module__" (GVal.vstr m))
        ≤ gmE (astore fs "__qualname__" (GVal.vstr q)) + 1 :=
      gmE_astore_le (by simp [gm])
    omega

/-- Module-level to_dict (l.266-269): the instance's own field dict (its
_to_dict under the canonical entity contract) updated with the type tags.
GufeTokenizable.to_shallow_dict (l.166-167) delegates here.  On non-objects
(where the source would fail calling _to_dict, a case its callers guard
against) it is the identity. -/
def to_dict : GVal → GVal
  | .vobj oid m q fs => .vdict (aupdate fs (module_qualname (.vobj oid m q fs)))
  | v => v

mutual

/-- modify_dependencies (l.232-262) specialised to the deep-encode modifier
to_dict and predicate is_gufe_obj, as composed by dict_encode_dependencies
(l.272-278).  copy.deepcopy at l.249 is the identity at this mutation-free
layer (mutation is modelled by the heap layer at the end of the file).
In the source the modifier fires first (except on the root) and the
isinstance dict branch then descends into the modified node, i.e. into
the tagged shallow dict aupdate fs (module_qualname ..); since walking
the two tag strings is the identity and astore and the per-entry walk
act on disjoint parts of each entry (keys versus values), the walk is
applied to the fields first and the tags updated after, which is equal
entry for entry and keeps the recursion structural. -/
def modify_dependencies_encode (v : GVal) (top : Bool) : GVal :=
  if is_gufe_obj v && !top then
    match v with
    | .vobj oid m q fs =>
      .vdict (aupdate (encode_entries fs) (module_qualname (.vobj oid m q fs)))
    | x => x
  else
    match v with
    | .vdict es => .vdict (encode_entries es)
    | .vlist xs => .vlist (encode_items xs)
    | x => x

/-- The dict comprehension at l.255-256 for the deep-encode walk. -/
def encode_entries : List (String × GVal) → List (String × GVal)
  | [] => []
  | (k, v) :: r => (k, modify_dependencies_encode v false) :: encode_entries r

/-- The list comprehension at l.259-260 for the deep-encode walk. -/
def encode_items : List GVal → List GVal
  | [] => []
  | v :: r => modify_dependencies_encode v false :: encode_items r

end

/-- dict_encode_dependencies (l.272-278): deep-encode walk over the shallow
dict of the instance, the root exempted from the modifier. -/
def dict_encode_dependencies (v : GVal) : GVal :=
  modify_dependencies_encode (to_dict v) true

mutual

/-- Python == on codec values.  Python dict equality is key-set based and
order insensitive; scalars compare structurally.  Comparing two live
instances dispatches to GufeTokenizable.__eq__, whose same-class branch
compares full dicts; the clause here is the structural approximation of
that branch (identity ignored), and is only exercised on instance-free
trees in this development.  A key string compares like the string it is. -/
def pyEq : GVal → GVal → Bool
  | .vnone, .vnone => true
  | .vbool a, .vbool b => a == b
  | .vint a, .vint b => a == b
  | .vstr a, .vstr b => a == b
  | .vdict a, .vdict b => pyEqEntries a b && b.all (fun p => akeymem a p.1)
  | .vlist a, .vlist b => pyEqList a b
  | .vobj _ m q f, .vobj _ m' q' f' =>
    m == m' && (q == q' && (pyEqEntries f f' && f'.all (fun p => akeymem f p.1)))
  | .vkeystr p d, .vkeystr p' d' => p == p' && beqE d d'
  | _, _ => false
termination_by v w => gm v + gm w
decreasing_by
  all_goals simp_wf
  all_goals simp [gm]
  all_goals omega

/-- Each key of the left dict maps to a Python-equal value in the right. -/
def pyEqEntries (a b : List (String × GVal)) : Bool :=
  match a with
  | [] => true
  | (k, v) :: r =>
    (match h : alookup b k with
     | some w => pyEq v w
     | none => false) && pyEqEntries r b
termination_by gmE a + gmE b
decreasing_by
  all_goals simp_wf
  all_goals first
    | (have h9 := gm_alookup h; simp [gmE]; omega)
    | (simp [gmE]; try omega)

/-- Pointwise Python == on lists. -/
def pyEqList : List GVal → List GVal → Bool
  | [], [] => true
  | v :: r, v' :: r' => pyEq v v' && pyEqList r r'
  | _, _ => false
termination_by a b => gmL a + gmL b
decreasing_by
  all_goals simp_wf
  all_goals simp [gmL]
  all_goals omega

end

/-- Python d.get(k): the stored value, or None when absent. -/
def pyGetD (es : List (String × GVal)) (k : String) : GVal :=
  (alookup es k).getD .vnone

/-- Python d.pop(k) restricted to its removal effect (first, hence unique,
occurrence). -/
def aerase {β : Type} : List (String × β) → String → List (String × β)
  | [], _ => []
  | (k', v) :: r, k => if k = k' then r else (k', v) :: aerase r k

/-- The include_defaults=False loop of GufeTokenizable.to_dict
(l.138-141): for each declared default, drop the key when its current
value compares Python-equal to the default. -/
def strip_defaults : List (String × GVal) → List (String × GVal) → List (String × GVal)
  | [], dct => dct
  | (k, dv) :: rest, dct =>
    strip_defaults rest (if pyEq (pyGetD dct k) dv then aerase dct k else dct)

/-- GufeTokenizable.to_dict (l.120-143): deep encode, then optional
stripping of the keys valued at their declared defaults.  cd gives each
class its _defaults table (l.84-97). -/
def GufeTokenizable_to_dict (cd : String → String → List (String × GVal))
    (v : GVal) (include_defaults : Bool) : GVal :=
  let dct := dict_encode_dependencies v
  if include_defaults then dct
  else
    match dct, v with
    | .vdict es, .vobj _ m q _ => .vdict (strip_defaults (cd m q) es)
    | d, _ => d

/-- Code-point lexicographic comparison of strings as character lists,
used to model the sort order of sorted(key=str). -/
def strLe : List Char → List Char → Bool
  | [], _ => true
  | _ :: _, [] => false
  | a :: r, b :: t =>
    if a.toNat < b.toNat then true
    else if b.toNat < a.toNat then false
    else strLe r t

/-- sorted(items, key=str) (l.60): a stable sort of the item list.  str
renders a pair starting with its key, and every item list sorted by the
source has pairwise distinct keys, so comparing keys lexicographically is
a faithful injective idealisation of the string order. -/
def sortPairs (l : List (String × GVal)) : List (String × GVal) :=
  l.insertionSort (fun a b => strLe a.1.data b.1.data = true)

/-- GufeTokenizable._gufe_tokenize (l.56-60): the sorted item list of the
default-stripped full dict. -/
def _gufe_tokenize (cd : String → String → List (String × GVal)) (v : GVal) :
    List (String × GVal) :=
  match GufeTokenizable_to_dict cd v false with
  | .vdict es => sortPairs es
  | _ => []

/-- tokenize (l.350-365): md5 over str of the normalized inputs,
idealised injectively (see the header): the token is the normalized list
itself. -/
def tokenize (cd : String → String → List (String × GVal)) (v : GVal) :
    List (String × GVal) :=
  _gufe_tokenize cd v

/-- The value of GufeTokenizable.key (l.62-67): class qualname as the
prefix part, token as above.  The registration side effect of l.70 is
key_register below. -/
def gufe_key (cd : String → String → List (String × GVal)) (v : GVal) : GKeyT :=
  match v with
  | .vobj _ _ q _ => (q, tokenize cd v)
  | _ => ("", tokenize cd v)

instance {E A : Type} [DecidableEq E] [DecidableEq A] : DecidableEq (Except E A) := fun a b =>
  match a, b with
  | .error e, .error f =>
    if h : e = f then .isTrue (by rw [h]) else .isFalse (fun hc => h (by cases hc; rfl))
  | .ok x, .ok y =>
    if h : x = y then .isTrue (by rw [h]) else .isFalse (fun hc => h (by cases hc; rfl))
  | .error _, .ok _ => .isFalse (fun hc => by cases hc)
  | .ok _, .error _ => .isFalse (fun hc => by cases hc)

/-- The process-wide mutable state of base.py: TOKENIZABLE_CLASS_REGISTRY
(l.15, class identified by its canonical (module, qualname) name),
TOKENIZABLE_REGISTRY (l.183, weakrefs as Option GVal: none is a dead
reference), and the fresh object-identity counter. -/
structure SysState where
  classReg : List ((String × String) × (String × String))
  instReg : List (GKeyT × Option GVal)
  nextId : Nat
deriving DecidableEq

/-- The registration side effect of the key property (l.69-70):
TOKENIZABLE_REGISTRY.setdefault(key, weakref.ref(self)).  Because
copy.deepcopy hands the key-encode walk temporary copies, the Python
weakref may target such a copy; liveness evolution is external (GC), and
theorems quantify over the registry states it produces, so the reference
is modelled as the (content-identical) instance itself. -/
def key_register (cd : String → String → List (String × GVal))
    (s : SysState) (v : GVal) : GKeyT × SysState :=
  let k := gufe_key cd v
  (k, { s with instReg := asetdefault s.instReg k (some v) })

/-- import_qualname (l.211-219): apply the remap table, then import;
importlib plus the getattr chain is modelled as the import environment
env from importable names to classes, an ImportError when absent. -/
def import_qualname (remap env : List ((String × String) × (String × String)))
    (modname qualname : String) : Except PyErr (String × String) :=
  let p := match alookup remap (modname, qualname) with
    | some p' => p'
    | none => (modname, qualname)
  match alookup env p with
  | some cls => .ok cls
  | none => .error (.importError p.1 p.2)

/-- get_class (l.222-229): registry hit returns the cached class; on a
miss, import (remap applied inside import_qualname) and cache the result
under the requested key. -/
def get_class (remap env : List ((String × String) × (String × String)))
    (s : SysState) (module qualname : String) :
    Except PyErr ((String × String) × SysState) :=
  match alookup s.classReg (module, qualname) with
  | some cls => .ok (cls, s)
  | none => do
    let cls ← import_qualname remap env module qualname
    .ok (cls, { s with classReg := astore s.classReg (module, qualname) cls })

/-- _from_dict (l.305-312): pop the two tags (dict.pop raises KeyError
naming the key when it is absent), raise the reconstitute KeyError when a
popped value is None, resolve the class, and rebuild the instance from
the remaining dict through the canonical cls._from_dict, drawing a fresh
object identity. -/
def _from_dict (remap env : List ((String × String) × (String × String)))
    (s : SysState) (dct : GVal) : Except PyErr (GVal × SysState) :=
  match dct with
  | .vdict es => do
    let (mv, es1) ← apop es "__module__"
    let (qv, es2) ← apop es1 "__qualname__"
    if qv = .vnone ∨ mv = .vnone then
      .error (.keyError "__qualname__ or __module__ key not found; unable to reconstitute from dict")
    else
      match mv, qv with
      | .vstr ms, .vstr qs => do
        let (cls, s') ← get_class remap env s ms qs
        .ok (.vobj s'.nextId cls.1 cls.2 es2, { s' with nextId := s'.nextId + 1 })
      | _, _ => .error (.typeError "module and qualname tags must be strings")
  | _ => .error (.attributeError "pop on a non dict")

/-- Module-level from_dict (l.291-302): build the instance, evaluate
obj.key (which setdefault-registers it), then return the live registered
instance for that key when the weakref is live; a dead weakref yields the
freshly built instance.  The except KeyError branch (unreachable after
the setdefault) also yields the fresh instance. -/
def from_dict (cd : String → String → List (String × GVal))
    (remap env : List ((String × String) × (String × String)))
    (s : SysState) (dct : GVal) : Except PyErr (GVal × SysState) := do
  let (obj, s1) ← _from_dict remap env s dct
  let (k, s2) := key_register cd s1 obj
  match alookup s2.instReg k with
  | some (some thing) => .ok (thing, s2)
  | some none => .ok (obj, s2)
  | none => .ok (obj, s2)

mutual

/-- modify_dependencies (l.232-262) specialised to the deep-decode
modifier from_dict and predicate is_gufe_dict, as composed by
dict_decode_dependencies (l.315-316), state threaded in Python evaluation
order.  The modifier returns a GufeTokenizable instance, never a dict or
a list, so the isinstance branches of the source cannot fire on its
result; the walk therefore recurses only below unmodified nodes. -/
def modify_dependencies_decode (cd : String → String → List (String × GVal))
    (remap env : List ((String × String) × (String × String)))
    (s : SysState) (v : GVal) (top : Bool) : Except PyErr (GVal × SysState) :=
  if is_gufe_dict v && !top then
    from_dict cd remap env s v
  else
    match v with
    | .vdict es => do
      let (rs, s') ← decode_entries cd remap env s es
      .ok (.vdict rs, s')
    | .vlist xs => do
      let (rs, s') ← decode_items cd remap env s xs
      .ok (.vlist rs, s')
    | x => .ok (x, s)

/-- The dict comprehension at l.255-256 for the deep-decode walk. -/
def decode_entries (cd : String → String → List (String × GVal))
    (remap env : List ((String × String) × (String × String)))
    (s : SysState) (es : List (String × GVal)) :
    Except PyErr (List (String × GVal) × SysState) :=
  match es with
  | [] => .ok ([], s)
  | (k, v) :: r => do
    let (w, s') ← modify_dependencies_decode cd remap env s v false
    let (rs, s'') ← decode_entries cd remap env s' r
    .ok ((k, w) :: rs, s'')

/-- The list comprehension at l.259-260 for the deep-decode walk. -/
def decode_items (cd : String → String → List (String × GVal))
    (remap env : List ((String × String) × (String × String)))
    (s : SysState) (xs : List GVal) : Except PyErr (List GVal × SysState) :=
  match xs with
  | [] => .ok ([], s)
  | v :: r => do
    let (w, s') ← modify_dependencies_decode cd remap env s v false
    let (rs, s'') ← decode_items cd remap env s' r
    .ok (w :: rs, s'')

end

/-- dict_decode_dependencies (l.315-316): walk the full dict decoding the
nested tagged dicts (root exempt), then from_dict on the root. -/
def dict_decode_dependencies (cd : String → String → List (String × GVal))
    (remap env : List ((String × String) × (String × String)))
    (s : SysState) (dct : GVal) : Except PyErr (GVal × SysState) := do
  let (d', s') ← modify_dependencies_decode cd remap env s dct true
  from_dict cd remap env s' d'

/-- GufeKey.to_dict (l.178-179): the reference record holding the key
string. -/
def GufeKey_to_dict (k : GKeyT) : GVal :=
  .vdict [(":gufe-key:", .vkeystr k.1 k.2)]

theorem gm_pos_of_obj {v : GVal} (h : is_gufe_obj v = true) : 2 <= gm v := by
  cases v <;> simp [is_gufe_obj] at h <;> simp [gm]

mutual

/-- modify_dependencies (l.232-262) specialised to the keyed-encode
modifier lambda obj: obj.key.to_dict() and predicate is_gufe_obj, as
composed by key_encode_dependencies (l.281-287).  Evaluating obj.key
setdefault-registers the instance, so state is threaded.  The modifier
result is a fresh one-entry record whose only value is the key string;
the source then descends into that record and leaves the string
unchanged (strings match neither isinstance branch), so the record is
returned as built. -/
def modify_dependencies_keyencode (cd : String → String → List (String × GVal))
    (s : SysState) (v : GVal) (top : Bool) : GVal × SysState :=
  if is_gufe_obj v && !top then
    let (k, s') := key_register cd s v
    (GufeKey_to_dict k, s')
  else
    match v with
    | .vdict es =>
      let (rs, s') := keyencode_entries cd s es
      (.vdict rs, s')
    | .vlist xs =>
      let (rs, s') := keyencode_items cd s xs
      (.vlist rs, s')
    | x => (x, s)

/-- The dict comprehension at l.255-256 for the keyed-encode walk. -/
def keyencode_entries (cd : String → String → List (String × GVal))
    (s : SysState) (es : List (String × GVal)) :
    List (String × GVal) × SysState :=
  match es with
  | [] => ([], s)
  | (k, v) :: r =>
    let (w, s') := modify_dependencies_keyencode cd s v false
    let (rs, s'') := keyencode_entries cd s' r
    ((k, w) :: rs, s'')

/-- The list comprehension at l.259-260 for the keyed-encode walk. -/
def keyencode_items (cd : String → String → List (String × GVal))
    (s : SysState) (xs : List GVal) : List GVal × SysState :=
  match xs with
  | [] => ([], s)
  | v :: r =>
    let (w, s') := modify_dependencies_keyencode cd s v false
    let (rs, s'') := keyencode_items cd s' r
    (w :: rs, s'')

end

/-- key_encode_dependencies (l.281-287) = GufeTokenizable.to_keyed_dict
(l.159-160): keyed-encode walk over the shallow tagged dict, the root
exempted from the modifier. -/
def key_encode_dependencies (cd : String → String → List (String × GVal))
    (s : SysState) (v : GVal) : GVal × SysState :=
  modify_dependencies_keyencode cd s (to_dict v) true

mutual

/-- modify_dependencies (l.232-262) specialised to the keyed-decode
modifier lambda d: TOKENIZABLE_REGISTRY[GufeKey(d[":gufe-key:"])]() and
predicate is_gufe_key_dict, as composed by key_decode_dependencies
(l.319-328).  A registry miss raises the subscript KeyError; a present
but dead weakref is called and yields None, which is spliced in place of
the record.  The modifier never returns a dict or list (an instance or
None), so the walk recurses only below unmodified nodes. -/
def modify_dependencies_keydecode (s : SysState) (v : GVal) (top : Bool) :
    Except PyErr (GVal × SysState) :=
  if is_gufe_key_dict v && !top then
    match v with
    | .vdict es =>
      match alookup es ":gufe-key:" with
      | some (.vkeystr p dta) =>
        match alookup s.instReg (p, dta) with
        | some (some thing) => .ok (thing, s)
        | some none => .ok (.vnone, s)
        | none => .error (.keyErrorGufe (p, dta))
      | some _ => .error (.typeError "gufe key entry is not a key string")
      | none => .error (.keyError ":gufe-key:")
    | _ => .error (.typeError "subscript on a non dict")
  else
    match v with
    | .vdict es => do
      let (rs, s') ← keydecode_entries s es
      .ok (.vdict rs, s')
    | .vlist xs => do
      let (rs, s') ← keydecode_items s xs
      .ok (.vlist rs, s')
    | x => .ok (x, s)

/-- The dict comprehension at l.255-256 for the keyed-decode walk. -/
def keydecode_entries (s : SysState) (es : List (String × GVal)) :
    Except PyErr (List (String × GVal) × SysState) :=
  match es with
  | [] => .ok ([], s)
  | (k, v) :: r => do
    let (w, s') ← modify_dependencies_keydecode s v false
    let (rs, s'') ← keydecode_entries s' r
    .ok ((k, w) :: rs, s'')

/-- The list comprehension at l.259-260 for the keyed-decode walk. -/
def keydecode_items (s : SysState) (xs : List GVal) :
    Except PyErr (List GVal × SysState) :=
  match xs with
  | [] => .ok ([], s)
  | v :: r => do
    let (w, s') ← modify_dependencies_keydecode s v false
    let (rs, s'') ← keydecode_items s' r
    .ok (w :: rs, s'')

end

/-- key_decode_dependencies (l.319-328): walk the keyed dict resolving
reference records through the instance registry (root exempt), then
from_dict on the root. -/
def key_decode_dependencies (cd : String → String → List (String × GVal))
    (remap env : List ((String × String) × (String × String)))
    (s : SysState) (dct : GVal) : Except PyErr (GVal × SysState) := do
  let (d', s') ← modify_dependencies_keydecode s dct true
  from_dict cd remap env s' d'

/-- GufeTokenizable.__eq__ (l.47-51).  When other is not an instance of
self's class the source evaluates NotImplemented("...") - calling the
NotImplemented sentinel - which raises a TypeError at comparison time
since the sentinel is not callable; otherwise the full dicts (defaults
included) are compared with Python ==. -/
def GufeTokenizable_eq (cd : String → String → List (String × GVal))
    (a b : GVal) : Except PyErr Bool :=
  match a, b with
  | .vobj i m q f, .vobj i' m' q' f' =>
    if m = m' ∧ q = q' then
      .ok (pyEq (GufeTokenizable_to_dict cd (.vobj i m q f) true)
                (GufeTokenizable_to_dict cd (.vobj i' m' q' f') true))
    else
      .error (.typeError "NotImplementedType object is not callable")
  | .vobj _ _ _ _, _ =>
    .error (.typeError "NotImplementedType object is not callable")
  | _, _ => .error (.attributeError "eq called on a non gufe object")

/-- A class-defaults table declaring no defaults, used by concrete
scenarios. -/
def cdNone : String → String → List (String × GVal) := fun _ _ => []

/-- A concrete flat entity of class M.C. -/
def exEnt : GVal := .vobj 0 "M" "C" [("x", .vint 1)]

/-- The full-form dictionary of exEnt. -/
def exDict : GVal :=
  .vdict [("x", .vint 1), ("__qualname__", .vstr "C"), ("__module__", .vstr "M")]

/-- The gufe key of exEnt under cdNone, written out. -/
def exKey : GKeyT :=
  ("C", [("__module__", .vstr "M"), ("__qualname__", .vstr "C"), ("x", .vint 1)])

/-- A state whose instance registry holds a dead weak reference under
exKey (the instance was collected), with class M.C registered. -/
def exStateDead : SysState := ⟨[(("M", "C"), ("M", "C"))], [(exKey, none)], 0⟩

/-- C2.  The spec requires that comparing an entity against a value of a
different concrete type must not raise and must yield the language's
canonical not-comparable sentinel.  GufeTokenizable.__eq__ (l.47-51)
instead evaluates NotImplemented("..."), calling the NotImplemented
sentinel, which raises TypeError: comparing the entity exEnt with the
integer 3 raises instead of returning a sentinel value.  The claim states
the spec's intent and the code is the slip the spec itself flags in
section 7. -/
theorem C2_mixed_type_eq_raises :
    GufeTokenizable_eq cdNone exEnt (.vint 3)
      = .error (.typeError "NotImplementedType object is not callable") := by
  decide

/-- C8.  The claim: decode fails with the distinct malformed-record error
exactly when a tag is missing, and never when both tags are present.  The
code (l.305-312) diverges both ways: dct.pop raises a plain
KeyError naming the missing key before the l.308 check is reached, so a
dict missing __module__ fails with KeyError("__module__") and the
distinct reconstitute error (whose own message says "key not found") is
unreachable for missing keys; and a dict carrying both tags with value
None does raise the distinct error although both tags are present. -/
theorem C8_malformed_record_divergence :
    (_from_dict [] [] ⟨[], [], 0⟩ (.vdict [("__qualname__", .vstr "C")])
        = .error (.keyError "__module__"))
    ∧ (_from_dict [] [] ⟨[], [], 0⟩
          (.vdict [("__qualname__", .vnone), ("__module__", .vnone)])
        = .error (.keyError
            "__qualname__ or __module__ key not found; unable to reconstitute from dict")) := by
  constructor
  · decide
  · decide

/-- C4.  The claim (and the from_dict docstring, l.152-154): when an
instance with the decoded identifier is still alive, from_dict returns
it, so decoding hands out at most one live instance per identifier.  At
the failing input: the registry holds a dead entry for exKey; the first
from_dict builds a fresh instance (identity 0) and — because
setdefault never replaces the dead entry (l.70) — leaves the dead entry
in place; a second from_dict of the same dictionary, while the first
result is still alive in the caller's hands, builds another fresh
instance (identity 1) instead of returning instance 0.  Two live
instances for one identifier: the code contradicts its own docstring
(the l.294 comment even records that this is not working). -/
theorem C4_dedup_fails_after_dead_entry :
    from_dict cdNone [] [] exStateDead exDict
      = .ok (.vobj 0 "M" "C" [("x", .vint 1)],
          ⟨[(("M", "C"), ("M", "C"))], [(exKey, none)], 1⟩)
    ∧ from_dict cdNone [] [] ⟨[(("M", "C"), ("M", "C"))], [(exKey, none)], 1⟩ exDict
      = .ok (.vobj 1 "M" "C" [("x", .vint 1)],
          ⟨[(("M", "C"), ("M", "C"))], [(exKey, none)], 2⟩)
    ∧ (GVal.vobj 0 "M" "C" [("x", .vint 1)]) ≠ (GVal.vobj 1 "M" "C" [("x", .vint 1)]) := by
  refine ⟨by decide, by decide, by decide⟩

/-- The remap table renaming A.Old to B.New. -/
def exRemap : List ((String × String) × (String × String)) := [(("A", "Old"), ("B", "New"))]

/-- An import environment in which B.New is importable. -/
def exEnv : List ((String × String) × (String × String)) := [(("B", "New"), ("B", "New"))]

/-- A state in which the old name A.Old is still present in the class
registry (for example the renamed-from class object was kept around and
self-registered at definition time), alongside B.New. -/
def exStateOld : SysState :=
  ⟨[(("A", "Old"), ("A", "Old")), (("B", "New"), ("B", "New"))], [], 0⟩

/-- C3, counterexample.  The claim says the remap table is consulted
before the Class Registry lookup, so a dict tagged (A, Old) decodes to an
instance of the class registered as (B, New).  In the code (l.222-229)
get_class tries TOKENIZABLE_CLASS_REGISTRY first and only the import
fallback applies the remap: with (A, Old) present in the registry and the
remap entry (A, Old) to (B, New) in place, decoding a dict tagged
(A, Old) yields an instance of class (A, Old), not (B, New). -/
theorem C3_registry_hit_beats_remap :
    from_dict cdNone exRemap exEnv exStateOld
        (.vdict [("__qualname__", .vstr "Old"), ("__module__", .vstr "A")])
      = .ok (.vobj 0 "A" "Old" [],
          ⟨[(("A", "Old"), ("A", "Old")), (("B", "New"), ("B", "New"))],
           [(("Old", [("__module__", .vstr "A"), ("__qualname__", .vstr "Old")]),
             some (.vobj 0 "A" "Old" []))], 1⟩)
    ∧ classOf (GVal.vobj 0 "A" "Old" []) ≠ some ("B", "New") := by
  refine ⟨by decide, by decide⟩

/-- C3, amended.  The remap table is consulted only inside the import
fallback, after the Class Registry lookup misses: when (mA, qA) has no
registry entry, a full-form dictionary tagged (mA, qA) decodes to an
instance of the class the remap redirects to, and get_class caches that
class under the old key. -/
theorem C3_remap_applies_on_registry_miss
    (remap env : List ((String × String) × (String × String))) (s : SysState)
    (mA qA mB qB : String) (fs : List (String × GVal))
    (hmiss : alookup s.classReg (mA, qA) = none)
    (hremap : alookup remap (mA, qA) = some (mB, qB))
    (himp : alookup env (mB, qB) = some (mB, qB)) :
    _from_dict remap env s
        (.vdict (("__module__", .vstr mA) :: ("__qualname__", .vstr qA) :: fs))
      = .ok (.vobj s.nextId mB qB fs,
          { s with classReg := astore s.classReg (mA, qA) (mB, qB),
                   nextId := s.nextId + 1 }) := by
  simp [_from_dict, apop, get_class, import_qualname, hmiss, hremap, himp,
    bind, Except.bind, pure, Except.pure]

/-- C3 witness: the amended theorem applied at a concrete renamed class. -/
theorem C3_remap_applies_on_registry_miss_witness :
    alookup (⟨[(("B", "New"), ("B", "New"))], [], 0⟩ : SysState).classReg ("A", "Old") = none
    ∧ alookup exRemap ("A", "Old") = some ("B", "New")
    ∧ alookup exEnv ("B", "New") = some ("B", "New")
    ∧ _from_dict exRemap exEnv ⟨[(("B", "New"), ("B", "New"))], [], 0⟩
        (.vdict [("__module__", .vstr "A"), ("__qualname__", .vstr "Old"), ("x", .vint 7)])
      = .ok (.vobj 0 "B" "New" [("x", .vint 7)],
          ⟨[(("B", "New"), ("B", "New")), (("A", "Old"), ("B", "New"))], [], 1⟩) :=
  ⟨by decide, by decide, by decide, by
    have h := C3_remap_applies_on_registry_miss exRemap exEnv
      ⟨[(("B", "New"), ("B", "New"))], [], 0⟩ "A" "Old" "B" "New" [("x", .vint 7)]
      (by decide) (by decide) (by decide)
    simpa [astore, akeymem, alookup] using h⟩

/-- A keyed dictionary whose nested dependency is the reference record
for exKey. -/
def exKeyedDict : GVal :=
  .vdict [("child", .vdict [(":gufe-key:", .vkeystr "C"
              [("__module__", .vstr "M"), ("__qualname__", .vstr "C"), ("x", .vint 1)])]),
          ("__qualname__", .vstr "C"), ("__module__", .vstr "M")]

/-- C9, counterexample.  The claim: keyed decode fails with an
unresolvable-reference error whenever the referenced id cannot be
resolved to a live instance, a present-but-dead registry entry being
treated exactly like an absent one.  With the registry entry for exKey
present but dead, key_decode_dependencies (l.319-328) succeeds: the dead
weakref is called, yields None, and None is spliced where the dependency
should be — no error of any kind is raised. -/
theorem C9_dead_reference_not_an_error :
    key_decode_dependencies cdNone [] [] exStateDead exKeyedDict
      = .ok (.vobj 0 "M" "C" [("child", .vnone)],
          ⟨[(("M", "C"), ("M", "C"))],
           [(exKey, none),
            (("C", [("__module__", .vstr "M"), ("__qualname__", .vstr "C"),
                    ("child", .vnone)]),
             some (.vobj 0 "M" "C" [("child", .vnone)]))], 1⟩) := by
  decide

/-- C9, amended.  Keyed decode raises the subscript KeyError carrying the
key only when the id is absent from the Instance Registry; a present key
whose weak reference is dead is not treated like an absent key: calling
the dead reference yields None, which is spliced in place of the
reference record and the walk continues without an
unresolvable-reference error. -/
theorem C9_absent_raises_dead_splices_none
    (s : SysState) (es : List (String × GVal)) (p : String)
    (dta : List (String × GVal))
    (hrec : alookup es ":gufe-key:" = some (.vkeystr p dta)) :
    (alookup s.instReg (p, dta) = none →
      modify_dependencies_keydecode s (.vdict es) false
        = .error (.keyErrorGufe (p, dta)))
    ∧ (alookup s.instReg (p, dta) = some none →
      modify_dependencies_keydecode s (.vdict es) false = .ok (.vnone, s)) := by
  constructor
  · intro habs
    simp [modify_dependencies_keydecode, is_gufe_key_dict, akeymem, hrec, habs]
  · intro hdead
    simp [modify_dependencies_keydecode, is_gufe_key_dict, akeymem, hrec, hdead]

/-- C9 witness: the amended theorem applied at the concrete reference
record, once against an empty registry (absent id: KeyError) and once
against the dead-entry registry (None spliced). -/
theorem C9_absent_raises_dead_splices_none_witness :
    alookup [(":gufe-key:", GVal.vkeystr "C"
        [("__module__", .vstr "M"), ("__qualname__", .vstr "C"), ("x", .vint 1)])]
        ":gufe-key:"
      = some (.vkeystr "C"
          [("__module__", .vstr "M"), ("__qualname__", .vstr "C"), ("x", .vint 1)])
    ∧ modify_dependencies_keydecode ⟨[], [], 0⟩
        (.vdict [(":gufe-key:", .vkeystr "C"
            [("__module__", .vstr "M"), ("__qualname__", .vstr "C"), ("x", .vint 1)])])
        false
      = .error (.keyErrorGufe ("C",
          [("__module__", .vstr "M"), ("__qualname__", .vstr "C"), ("x", .vint 1)]))
    ∧ modify_dependencies_keydecode exStateDead
        (.vdict [(":gufe-key:", .vkeystr "C"
            [("__module__", .vstr "M"), ("__qualname__", .vstr "C"), ("x", .vint 1)])])
        false
      = .ok (.vnone, exStateDead) :=
  ⟨by decide,
   (C9_absent_raises_dead_splices_none ⟨[], [], 0⟩
      [(":gufe-key:", GVal.vkeystr "C"
          [("__module__", .vstr "M"), ("__qualname__", .vstr "C"), ("x", .vint 1)])]
      "C" [("__module__", .vstr "M"), ("__qualname__", .vstr "C"), ("x", .vint 1)]
      (by decide)).1 (by decide),
   (C9_absent_raises_dead_splices_none exStateDead
      [(":gufe-key:", GVal.vkeystr "C"
          [("__module__", .vstr "M"), ("__qualname__", .vstr "C"), ("x", .vint 1)])]
      "C" [("__module__", .vstr "M"), ("__qualname__", .vstr "C"), ("x", .vint 1)]
      (by decide)).2 (by decide)⟩

mutual

/-- The keyed form a nested value should take according to the spec
(stated for claim C6 in the spec's words): every nested entity, wherever
it occurs inside mappings or sequences, is replaced by the compact
reference record holding its identifier; everything else is kept. -/
def keyRefSpec (cd : String → String → List (String × GVal)) : GVal → GVal
  | .vobj oid m q fs => GufeKey_to_dict (gufe_key cd (.vobj oid m q fs))
  | .vdict es => .vdict (keyRefSpecE cd es)
  | .vlist xs => .vlist (keyRefSpecL cd xs)
  | x => x

/-- keyRefSpec over dict entries. -/
def keyRefSpecE (cd : String → String → List (String × GVal)) :
    List (String × GVal) → List (String × GVal)
  | [] => []
  | (k, v) :: r => (k, keyRefSpec cd v) :: keyRefSpecE cd r

/-- keyRefSpec over lists. -/
def keyRefSpecL (cd : String → String → List (String × GVal)) :
    List GVal → List GVal
  | [] => []
  | v :: r => keyRefSpec cd v :: keyRefSpecL cd r

end

mutual

theorem keyencode_value_eq_spec (cd : String → String → List (String × GVal)) :
    ∀ (s : SysState) (v : GVal),
      (modify_dependencies_keyencode cd s v false).1 = keyRefSpec cd v
  | s, .vobj oid m q fs => by
    simp [modify_dependencies_keyencode, is_gufe_obj, key_register, keyRefSpec]
  | s, .vdict es => by
    simp [modify_dependencies_keyencode, is_gufe_obj, keyRefSpec]
    exact keyencode_entries_eq_spec cd s es
  | s, .vlist xs => by
    simp [modify_dependencies_keyencode, is_gufe_obj, keyRefSpec]
    exact keyencode_items_eq_spec cd s xs
  | s, .vnone => by simp [modify_dependencies_keyencode, is_gufe_obj, keyRefSpec]
  | s, .vbool b => by simp [modify_dependencies_keyencode, is_gufe_obj, keyRefSpec]
  | s, .vint n => by simp [modify_dependencies_keyencode, is_gufe_obj, keyRefSpec]
  | s, .vstr t => by simp [modify_dependencies_keyencode, is_gufe_obj, keyRefSpec]
  | s, .vkeystr p d => by simp [modify_dependencies_keyencode, is_gufe_obj, keyRefSpec]

theorem keyencode_entries_eq_spec (cd : String → String → List (String × GVal)) :
    ∀ (s : SysState) (es : List (String × GVal)),
      (keyencode_entries cd s es).1 = keyRefSpecE cd es
  | s, [] => by simp [keyencode_entries, keyRefSpecE]
  | s, (k, v) :: r => by
    simp only [keyencode_entries, keyRefSpecE]
    rw [keyencode_value_eq_spec cd s v,
        keyencode_entries_eq_spec cd (modify_dependencies_keyencode cd s v false).2 r]

theorem keyencode_items_eq_spec (cd : String → String → List (String × GVal)) :
    ∀ (s : SysState) (xs : List GVal),
      (keyencode_items cd s xs).1 = keyRefSpecL cd xs
  | s, [] => by simp [keyencode_items, keyRefSpecL]
  | s, v :: r => by
    simp only [keyencode_items, keyRefSpecL]
    rw [keyencode_value_eq_spec cd s v,
        keyencode_items_eq_spec cd (modify_dependencies_keyencode cd s v false).2 r]

end

/-- C6.  Keyed encoding never replaces the root entity by a reference
record: for every instance, the value produced by to_keyed_dict
(key_encode_dependencies) is the root's own shallow dictionary complete
with its type tags, in which exactly the nested entities have been
replaced by their reference records (keyRefSpec, the spec-side form). -/
theorem C6_root_never_reference_encoded
    (cd : String → String → List (String × GVal)) (s : SysState)
    (oid : Nat) (m q : String) (fs : List (String × GVal)) :
    (key_encode_dependencies cd s (.vobj oid m q fs)).1
      = .vdict (keyRefSpecE cd
          (aupdate fs (module_qualname (.vobj oid m q fs)))) := by
  simp [key_encode_dependencies, to_dict, modify_dependencies_keyencode,
    is_gufe_obj]
  exact keyencode_entries_eq_spec cd s _

theorem alookup_none_iff {α β : Type} [DecidableEq α] {l : List (α × β)} {k : α} :
    alookup l k = none ↔ k ∉ l.map Prod.fst := by
  induction l with
  | nil => simp [alookup]
  | cons p r ih =>
    obtain ⟨pk, pv⟩ := p
    by_cases h : k = pk
    · subst h; simp [alookup]
    · simp [alookup, h, ih]

theorem alookup_append {α β : Type} [DecidableEq α] {l1 l2 : List (α × β)} {k : α} :
    alookup (l1 ++ l2) k
      = match alookup l1 k with
        | some v => some v
        | none => alookup l2 k := by
  induction l1 with
  | nil => simp [alookup]
  | cons p r ih =>
    obtain ⟨pk, pv⟩ := p
    by_cases h : k = pk
    · subst h; simp [alookup]
    · simp [alookup, h, ih]

theorem alookup_map_store_ne {α β : Type} [DecidableEq α] {l : List (α × β)}
    {k k' : α} {v : β} (h : k ≠ k') :
    alookup (l.map (fun p => if p.1 = k' then (k', v) else p)) k = alookup l k := by
  induction l with
  | nil => rfl
  | cons p r ih =>
    obtain ⟨pk, pv⟩ := p
    by_cases h1 : ((pk, pv) : α × β).1 = k'
    · rw [List.map_cons, if_pos h1]
      simp only at h1
      subst h1
      simp [alookup, h, ih]
    · rw [List.map_cons, if_neg h1]
      by_cases h2 : k = pk
      · subst h2; simp [alookup]
      · simp [alookup, h2, ih]

theorem alookup_astore_ne {α β : Type} [DecidableEq α] {l : List (α × β)}
    {k k' : α} {v : β} (h : k ≠ k') :
    alookup (astore l k' v) k = alookup l k := by
  unfold astore
  split
  · exact alookup_map_store_ne h
  · rw [alookup_append]
    have : alookup [(k', v)] k = none := by simp [alookup, h]
    cases ha : alookup l k <;> simp [ha, this]

theorem alookup_aupdate_tags_ne {l : List (String × GVal)} {k : String} {v : GVal}
    (hm : k ≠ "__module__") (hq : k ≠ "__qualname__") :
    alookup (aupdate l (module_qualname v)) k = alookup l k := by
  cases v <;> simp [module_qualname, aupdate]
  case vobj oid m q fs =>
    rw [alookup_astore_ne hm, alookup_astore_ne hq]

theorem alookup_encode_entries {l : List (String × GVal)} {k : String} :
    alookup (encode_entries l) k
      = (alookup l k).map (fun v => modify_dependencies_encode v false) := by
  induction l with
  | nil => simp [encode_entries, alookup]
  | cons p r ih =>
    obtain ⟨pk, pv⟩ := p
    by_cases h : k = pk
    · subst h; simp [encode_entries, alookup]
    · simp [encode_entries, alookup, h, ih]

/-- Scalars of the dictionary wire shape: None, bools, ints, strings. -/
def isAtomB : GVal → Bool
  | .vnone => true
  | .vbool _ => true
  | .vint _ => true
  | .vstr _ => true
  | _ => false

theorem encode_atom {v : GVal} (h : isAtomB v = true) :
    modify_dependencies_encode v false = v := by
  cases v <;> first
    | rfl
    | simp [isAtomB] at h

theorem pyEq_atom_refl {v : GVal} (h : isAtomB v = true) : pyEq v v = true := by
  cases v <;> simp [pyEq, isAtomB] at h ⊢

theorem pyEq_atom_right {w v : GVal} (ha : isAtomB v = true)
    (h : pyEq w v = true) : w = v := by
  cases v <;> cases w <;> simp [pyEq, isAtomB] at h ha ⊢ <;> exact h

theorem alookup_aerase_ne {β : Type} {l : List (String × β)} {k k' : String} (h : k ≠ k') :
    alookup (aerase l k') k = alookup l k := by
  induction l with
  | nil => rfl
  | cons p r ih =>
    obtain ⟨pk, pv⟩ := p
    by_cases h1 : k' = pk
    · subst h1
      simp [aerase, alookup, h]
    · by_cases h2 : k = pk
      · subst h2; simp [aerase, h1, alookup]
      · simp [aerase, h1, alookup, h2, ih]

theorem aerase_keys_sublist {β : Type} {l : List (String × β)} {k : String} :
    List.Sublist ((aerase l k).map Prod.fst) (l.map Prod.fst) := by
  induction l with
  | nil => simp [aerase]
  | cons p r ih =>
    obtain ⟨pk, pv⟩ := p
    by_cases h : k = pk
    · subst h
      simp [aerase]
    · simp [aerase, h]
      exact ih

theorem alookup_aerase_self {β : Type} {l : List (String × β)} {k : String}
    (h : (l.map Prod.fst).Nodup) : alookup (aerase l k) k = none := by
  induction l with
  | nil => rfl
  | cons p r ih =>
    obtain ⟨pk, pv⟩ := p
    simp only [List.map_cons, List.nodup_cons] at h
    by_cases h1 : k = pk
    · subst h1
      simp [aerase]
      exact alookup_none_iff.mpr h.1
    · simp [aerase, alookup, h1]
      exact ih h.2

theorem strip_preserves_none {k : String} :
    ∀ (ds dct : List (String × GVal)), alookup dct k = none →
      alookup (strip_defaults ds dct) k = none := by
  intro ds
  induction ds with
  | nil => intro dct h; simpa [strip_defaults] using h
  | cons p rest ih =>
    intro dct h
    obtain ⟨k1, d1⟩ := p
    simp only [strip_defaults]
    apply ih
    split
    · rw [alookup_none_iff] at h ⊢
      intro hc
      exact h (aerase_keys_sublist.mem hc)
    · exact h

theorem strip_removes {k : String} {d : GVal} :
    ∀ (ds dct : List (String × GVal)), (k, d) ∈ ds →
      (ds.map Prod.fst).Nodup → (dct.map Prod.fst).Nodup →
      (∀ w, alookup dct k = some w → pyEq w d = true) →
      alookup (strip_defaults ds dct) k = none := by
  intro ds
  induction ds with
  | nil => intro dct h; cases h
  | cons p rest ih =>
    intro dct hmem hnd hnddct hv
    obtain ⟨k1, d1⟩ := p
    simp only [List.map_cons, List.nodup_cons] at hnd
    rcases List.mem_cons.mp hmem with hhead | htail
    · injection hhead with hk hd
      subst hk; subst hd
      simp only [strip_defaults]
      cases hlk : alookup dct k with
      | none =>
        apply strip_preserves_none
        split
        · rw [alookup_none_iff] at hlk ⊢
          intro hc
          exact hlk (aerase_keys_sublist.mem hc)
        · exact hlk
      | some w =>
        have hw := hv w hlk
        have hcond : pyEq (pyGetD dct k) d = true := by
          simpa [pyGetD, hlk] using hw
        rw [if_pos hcond]
        exact strip_preserves_none rest _ (alookup_aerase_self hnddct)
    · have hk1 : k1 ≠ k := by
        intro hc
        subst hc
        exact hnd.1 (List.mem_map.mpr ⟨(k1, d), htail, rfl⟩)
      simp only [strip_defaults]
      split
      · exact ih _ htail hnd.2
          ((aerase_keys_sublist).nodup hnddct)
          (fun w hw => hv w (by rwa [alookup_aerase_ne (fun hc => hk1 hc.symm)] at hw))
      · exact ih _ htail hnd.2 hnddct hv

/-- The default _defaults implementation (l.84-97): the name-to-default
mapping read off the constructor parameters that declare a default value
(inspect.signature; a parameter without a default contributes nothing). -/
def _defaults (decl : List (String × Option GVal)) : List (String × GVal) :=
  decl.filterMap (fun p => p.2.map (fun d => (p.1, d)))

/-- Construction of an instance by the canonical entity constructor.
Modelled from the spec: entity constructors are entity-contract code
outside base.py ("an entity is constructed by its own logic"); the
concrete scenario of spec section 8.7 (Point with x:int=0, y:int) fixes
the semantics: each declared parameter takes the caller-given value when
one is given and its declared default otherwise. -/
def constructObj (decl : List (String × Option GVal)) (oid : Nat) (m q : String)
    (given : List (String × GVal)) : GVal :=
  .vobj oid m q
    (decl.map (fun p => (p.1, (alookup given p.1).getD (p.2.getD .vnone))))

theorem mem_unique_of_nodup_keys {α β : Type} [DecidableEq α]
    {l : List (α × β)} (h : (l.map Prod.fst).Nodup) {k : α} {x y : β}
    (h1 : (k, x) ∈ l) (h2 : (k, y) ∈ l) : x = y := by
  induction l with
  | nil => cases h1
  | cons p r ih =>
    simp only [List.map_cons, List.nodup_cons] at h
    rcases List.mem_cons.mp h1 with ha | ha <;>
      rcases List.mem_cons.mp h2 with hb | hb
    · rw [← ha] at hb; exact congrArg Prod.snd hb.symm
    · exfalso
      exact h.1 (ha ▸ List.mem_map.mpr ⟨(k, y), hb, rfl⟩)
    · exfalso
      exact h.1 (hb ▸ List.mem_map.mpr ⟨(k, x), ha, rfl⟩)
    · exact ih h.2 ha hb

theorem mem_defaults_of_mem {decl : List (String × Option GVal)}
    {k : String} {d : GVal} (h : (k, some d) ∈ decl) : (k, d) ∈ _defaults decl :=
  List.mem_filterMap.mpr ⟨(k, some d), h, rfl⟩

theorem defaults_keys_sublist {decl : List (String × Option GVal)} :
    List.Sublist ((_defaults decl).map Prod.fst) (decl.map Prod.fst) := by
  induction decl with
  | nil => simp [_defaults]
  | cons p r ih =>
    obtain ⟨pk, od⟩ := p
    cases od with
    | none =>
      simp only [_defaults, List.filterMap_cons, Option.map_none, List.map_cons]
      exact ih.cons _
    | some d =>
      simp only [_defaults, List.filterMap_cons, Option.map_some, List.map_cons]
      exact ih.cons₂ _

theorem encode_entries_keys {l : List (String × GVal)} :
    (encode_entries l).map Prod.fst = l.map Prod.fst := by
  induction l with
  | nil => simp [encode_entries]
  | cons p r ih =>
    obtain ⟨pk, pv⟩ := p
    simp [encode_entries, ih]

theorem aupdate_two_fresh {l : List (String × GVal)} {k1 k2 : String}
    {v1 v2 : GVal} (h1 : alookup l k1 = none) (h2 : alookup l k2 = none)
    (h12 : k2 ≠ k1) :
    aupdate l [(k1, v1), (k2, v2)] = l ++ [(k1, v1), (k2, v2)] := by
  have hs1 : astore l k1 v1 = l ++ [(k1, v1)] := by
    unfold astore
    rw [if_neg]
    simp [akeymem, h1]
  have hlk2 : alookup (l ++ [(k1, v1)]) k2 = none := by
    rw [alookup_append, h2]
    simp [alookup, h12]
  have hs2 : astore (l ++ [(k1, v1)]) k2 v2 = (l ++ [(k1, v1)]) ++ [(k2, v2)] := by
    unfold astore
    rw [if_neg]
    simp [akeymem, hlk2]
  simp [aupdate, hs1, hs2]

theorem alookup_construct {decl : List (String × Option GVal)}
    {g : List (String × GVal)} {k : String} {d : GVal}
    (hnd : (decl.map Prod.fst).Nodup) (hmem : (k, some d) ∈ decl) :
    alookup (decl.map (fun p => (p.1, (alookup g p.1).getD (p.2.getD .vnone)))) k
      = some ((alookup g k).getD d) := by
  induction decl with
  | nil => cases hmem
  | cons p r ih =>
    obtain ⟨pk, od⟩ := p
    simp only [List.map_cons, List.nodup_cons] at hnd
    by_cases hk : k = pk
    · subst hk
      have : od = some d := by
        rcases List.mem_cons.mp hmem with hh | ht
        · exact (congrArg Prod.snd hh).symm
        · exact absurd (List.mem_map.mpr ⟨(k, some d), ht, rfl⟩) hnd.1
      subst this
      simp [alookup]
    · have ht : (k, some d) ∈ r := by
        rcases List.mem_cons.mp hmem with hh | ht
        · exact absurd (congrArg Prod.fst hh) hk
        · exact ht
      simp [alookup, hk]
      exact ih hnd.2 ht

/-- C7.  With cd m q the _defaults table derived from the constructor
declaration decl: an instance constructed with parameter k explicitly set
to its declared default d and an instance constructed with k left
implicit have the same default-stripped full dict, hence the same
fingerprint and the same identifier (the key is the qualname paired with
the token computed over the default-stripped form, l.56-67); and
to_dict(include_defaults=False) omits the default-valued field k. -/
theorem C7_explicit_and_implicit_defaults_agree
    (cd : String → String → List (String × GVal))
    (decl : List (String × Option GVal)) (oid1 oid2 : Nat)
    (m q k : String) (d : GVal) (given : List (String × GVal))
    (hcd : cd m q = _defaults decl)
    (hnd : (decl.map Prod.fst).Nodup)
    (hmem : (k, some d) ∈ decl)
    (hgiven : alookup given k = none)
    (hatom : isAtomB d = true)
    (htm : "__module__" ∉ decl.map Prod.fst)
    (htq : "__qualname__" ∉ decl.map Prod.fst) :
    GufeTokenizable_to_dict cd (constructObj decl oid1 m q (given ++ [(k, d)])) false
      = GufeTokenizable_to_dict cd (constructObj decl oid2 m q given) false
    ∧ gufe_key cd (constructObj decl oid1 m q (given ++ [(k, d)]))
      = gufe_key cd (constructObj decl oid2 m q given)
    ∧ ∃ es,
        GufeTokenizable_to_dict cd (constructObj decl oid1 m q (given ++ [(k, d)])) false
          = .vdict es
        ∧ alookup es k = none := by
  have hkdecl : k ∈ decl.map Prod.fst := List.mem_map.mpr ⟨(k, some d), hmem, rfl⟩
  have hkm : k ≠ "__module__" := fun hc => htm (hc ▸ hkdecl)
  have hkq : k ≠ "__qualname__" := fun hc => htq (hc ▸ hkdecl)
  have hfields :
      decl.map (fun p => (p.1, (alookup (given ++ [(k, d)]) p.1).getD (p.2.getD .vnone)))
        = decl.map (fun p => (p.1, (alookup given p.1).getD (p.2.getD .vnone))) := by
    apply List.map_congr_left
    intro p hp
    by_cases hpk : p.1 = k
    · have hp2 : p.2 = some d := by
        have : (p.1, p.2) ∈ decl := by simpa using hp
        rw [hpk] at this
        exact mem_unique_of_nodup_keys hnd this hmem
      rw [alookup_append]
      rw [hpk, hgiven, hp2]
      simp [alookup]
    · rw [alookup_append]
      cases hg : alookup given p.1 with
      | some w => simp
      | none => simp [alookup, hpk]
  have he1 : constructObj decl oid1 m q (given ++ [(k, d)])
      = .vobj oid1 m q
          (decl.map (fun p => (p.1, (alookup given p.1).getD (p.2.getD .vnone)))) := by
    simp only [constructObj, hfields]
  refine ⟨?_, ?_, ?_⟩
  · rw [he1]
    rfl
  · rw [he1]
    rfl
  · rw [he1]
    refine ⟨_, rfl, ?_⟩
    rw [hcd]
    apply strip_removes _ _ (mem_defaults_of_mem hmem)
      (defaults_keys_sublist.nodup hnd)
    · rw [encode_entries_keys]
      have hupd : aupdate
          (decl.map (fun p => (p.1, (alookup given p.1).getD (p.2.getD .vnone))))
          (module_qualname (.vobj oid1 m q
            (decl.map (fun p => (p.1, (alookup given p.1).getD (p.2.getD .vnone))))))
          = (decl.map (fun p => (p.1, (alookup given p.1).getD (p.2.getD .vnone))))
            ++ [("__qualname__", .vstr q), ("__module__", .vstr m)] := by
        apply aupdate_two_fresh
        · rw [alookup_none_iff, List.map_map]
          simpa using htq
        · rw [alookup_none_iff, List.map_map]
          simpa using htm
        · decide
      rw [hupd]
      simp only [List.map_append, List.map_map]
      rw [List.nodup_append]
      refine ⟨by simpa using hnd, by simp, ?_⟩
      intro a ha hb
      simp at ha hb
      rcases hb with hb | hb <;> subst hb
      · exact htq (by simpa using ha)
      · exact htm (by simpa using ha)
    · intro w hw
      rw [alookup_encode_entries] at hw
      rw [alookup_aupdate_tags_ne hkm hkq] at hw
      rw [alookup_construct hnd hmem, hgiven] at hw
      simp only [Option.getD_none, Option.map_some] at hw
      have : w = d := by
        have := hw
        injection this with h2
        rw [← h2]
        show modify_dependencies_encode d false = d
        exact encode_atom hatom
      rw [this]
      exact pyEq_atom_refl hatom

/-- C7 witness: the spec's Point scenario - class M.P with x:int=0, y:int.
Point(y=5) and Point(x=0, y=5) have the same default-stripped dict (which
omits x), the same fingerprint and the same identifier. -/
theorem C7_explicit_and_implicit_defaults_agree_witness :
    ((fun m' q' => if m' = "M" ∧ q' = "P" then [("x", GVal.vint 0)] else [])
        "M" "P" = _defaults [("x", some (GVal.vint 0)), ("y", none)])
    ∧ (([("x", some (GVal.vint 0)), ("y", none)].map
          (Prod.fst (α := String) (β := Option GVal))).Nodup)
    ∧ (("x", some (GVal.vint 0))
        ∈ [("x", some (GVal.vint 0)), ("y", (none : Option GVal))])
    ∧ alookup [("y", GVal.vint 5)] "x" = none
    ∧ isAtomB (GVal.vint 0) = true
    ∧ GufeTokenizable_to_dict
        (fun m' q' => if m' = "M" ∧ q' = "P" then [("x", GVal.vint 0)] else [])
        (constructObj [("x", some (GVal.vint 0)), ("y", none)] 0 "M" "P"
          ([("y", GVal.vint 5)] ++ [("x", GVal.vint 0)])) false
      = GufeTokenizable_to_dict
          (fun m' q' => if m' = "M" ∧ q' = "P" then [("x", GVal.vint 0)] else [])
          (constructObj [("x", some (GVal.vint 0)), ("y", none)] 1 "M" "P"
            [("y", GVal.vint 5)]) false
    ∧ gufe_key
        (fun m' q' => if m' = "M" ∧ q' = "P" then [("x", GVal.vint 0)] else [])
        (constructObj [("x", some (GVal.vint 0)), ("y", none)] 0 "M" "P"
          ([("y", GVal.vint 5)] ++ [("x", GVal.vint 0)]))
      = gufe_key
          (fun m' q' => if m' = "M" ∧ q' = "P" then [("x", GVal.vint 0)] else [])
          (constructObj [("x", some (GVal.vint 0)), ("y", none)] 1 "M" "P"
            [("y", GVal.vint 5)]) := by
  have h := C7_explicit_and_implicit_defaults_agree
    (fun m' q' => if m' = "M" ∧ q' = "P" then [("x", GVal.vint 0)] else [])
    [("x", some (GVal.vint 0)), ("y", none)] 0 1 "M" "P" "x" (GVal.vint 0)
    [("y", GVal.vint 5)]
    (by decide) (by decide) (by decide) (by decide) (by decide)
    (by decide) (by decide)
  exact ⟨by decide, by decide, by decide, by decide, by decide, h.1, h.2.1⟩

/-- Heap layer: Python dicts and lists are mutable objects aliased by
reference; copy.deepcopy (l.249) and dict.pop (l.306-307) act on this
structure.  A heap value is an immutable atom (scalars, key strings and
entity values, which the code under study never mutates in place) or a
reference to a mutable container cell. -/
inductive HVal where
  | hatom : GVal → HVal
  | href : Nat → HVal
deriving DecidableEq

/-- A mutable container cell: a dict or a list. -/
inductive HCell where
  | hdict : List (String × HVal) → HCell
  | hlist : List HVal → HCell
deriving DecidableEq

/-- A heap: the allocated cells and the next fresh address. -/
structure Heap where
  cells : List (Nat × HCell)
  next : Nat
deriving DecidableEq

/-- Dereference an address. -/
def hlookup (h : Heap) (a : Nat) : Option HCell := alookup h.cells a

/-- Allocate a fresh cell. -/
def halloc (h : Heap) (c : HCell) : Nat × Heap :=
  (h.next, ⟨h.cells ++ [(h.next, c)], h.next + 1⟩)

/-- Overwrite the cell at an existing address (in-place mutation). -/
def hstore (h : Heap) (a : Nat) (c : HCell) : Heap :=
  ⟨astore h.cells a c, h.next⟩

/-- Heap well-formedness: every allocated address is below next. -/
def HeapWF (h : Heap) : Prop := ∀ p ∈ h.cells, p.1 < h.next

/-- The address a heap value points at, when it is a reference. -/
def rootAddr : HVal → Option Nat
  | .hatom _ => none
  | .href a => some a

mutual

/-- copy.deepcopy (l.249) on the heap: container cells are copied
recursively into freshly allocated cells; atoms are returned as they are
(the code never mutates them in place, so sharing is observationally
equal to copying; the fresh Python identities of copied entities are
covered at the content layer by quantifying over identities).  Fuel
bounds the recursion as Python's recursion limit does; every theorem
about the heap layer is conditioned on the call returning ok. -/
def deepcopyH : Nat → Heap → HVal → Except PyErr (HVal × Heap)
  | 0, _, _ => .error .recursionError
  | _ + 1, h, .hatom g => .ok (.hatom g, h)
  | fuel + 1, h, .href a =>
    match hlookup h a with
    | none => .error (.keyError "dangling reference")
    | some (.hdict es) => do
      let (es', h1) ← deepcopyHE fuel h es
      let p := halloc h1 (.hdict es')
      .ok (.href p.1, p.2)
    | some (.hlist xs) => do
      let (xs', h1) ← deepcopyHL fuel h xs
      let p := halloc h1 (.hlist xs')
      .ok (.href p.1, p.2)

/-- deepcopy of dict entries, left to right. -/
def deepcopyHE : Nat → Heap → List (String × HVal) →
    Except PyErr (List (String × HVal) × Heap)
  | 0, _, _ => .error .recursionError
  | _ + 1, h, [] => .ok ([], h)
  | fuel + 1, h, (k, v) :: r => do
    let (v', h1) ← deepcopyH fuel h v
    let (rs, h2) ← deepcopyHE fuel h1 r
    .ok ((k, v') :: rs, h2)

/-- deepcopy of list items, left to right. -/
def deepcopyHL : Nat → Heap → List HVal → Except PyErr (List HVal × Heap)
  | 0, _, _ => .error .recursionError
  | _ + 1, h, [] => .ok ([], h)
  | fuel + 1, h, v :: r => do
    let (v', h1) ← deepcopyH fuel h v
    let (rs, h2) ← deepcopyHL fuel h1 r
    .ok (v' :: rs, h2)

end

mutual

/-- modify_dependencies (l.232-262) on the heap, generic in the modifier
and the predicate as in the source: deepcopy the argument (l.249), apply
the modifier to the copy when the predicate holds and the node is not the
root (l.251-252), then rebuild dict and list nodes around recursive calls
into fresh cells (the comprehensions at l.255-260 build new containers).
Fuel bounds recursion depth; theorems are conditioned on an ok result. -/
def modify_dependencies_heap
    (modifier : Heap → HVal → Except PyErr (HVal × Heap))
    (is_mineH : Heap → HVal → Bool) :
    Nat → Heap → HVal → Bool → Except PyErr (HVal × Heap)
  | 0, _, _, _ => .error .recursionError
  | fuel + 1, h, v, top => do
    let (v1, h1) ← deepcopyH fuel h v
    let (v2, h2) ← if is_mineH h1 v1 && !top then modifier h1 v1 else .ok (v1, h1)
    match v2 with
    | .hatom g => .ok (.hatom g, h2)
    | .href a =>
      match hlookup h2 a with
      | none => .ok (.href a, h2)
      | some (.hdict es) => do
        let (es', h3) ← modify_entries_heap modifier is_mineH fuel h2 es
        let p := halloc h3 (.hdict es')
        .ok (.href p.1, p.2)
      | some (.hlist xs) => do
        let (xs', h3) ← modify_items_heap modifier is_mineH fuel h2 xs
        let p := halloc h3 (.hlist xs')
        .ok (.href p.1, p.2)

/-- The dict comprehension (l.255-256) on the heap. -/
def modify_entries_heap
    (modifier : Heap → HVal → Except PyErr (HVal × Heap))
    (is_mineH : Heap → HVal → Bool) :
    Nat → Heap → List (String × HVal) →
    Except PyErr (List (String × HVal) × Heap)
  | 0, _, _ => .error .recursionError
  | _ + 1, h, [] => .ok ([], h)
  | fuel + 1, h, (k, v) :: r => do
    let (w, h1) ← modify_dependencies_heap modifier is_mineH fuel h v false
    let (rs, h2) ← modify_entries_heap modifier is_mineH fuel h1 r
    .ok ((k, w) :: rs, h2)

/-- The list comprehension (l.259-260) on the heap. -/
def modify_items_heap
    (modifier : Heap → HVal → Except PyErr (HVal × Heap))
    (is_mineH : Heap → HVal → Bool) :
    Nat → Heap → List HVal → Except PyErr (List HVal × Heap)
  | 0, _, _ => .error .recursionError
  | _ + 1, h, [] => .ok ([], h)
  | fuel + 1, h, v :: r => do
    let (w, h1) ← modify_dependencies_heap modifier is_mineH fuel h v false
    let (rs, h2) ← modify_items_heap modifier is_mineH fuel h1 r
    .ok (w :: rs, h2)

end

/-- One heap operation's frame: next is monotone, well-formedness holds
afterwards, and every cell allocated before the operation is unchanged. -/
def StepAll (h h' : Heap) : Prop :=
  h.next ≤ h'.next ∧ HeapWF h' ∧ ∀ a, a < h.next → hlookup h' a = hlookup h a

theorem StepAll.same {h : Heap} (hwf : HeapWF h) : StepAll h h :=
  ⟨le_refl _, hwf, fun _ _ => Eq.refl _⟩

theorem StepAll.trans {h h1 h2 : Heap} (s1 : StepAll h h1) (s2 : StepAll h1 h2) :
    StepAll h h2 :=
  ⟨le_trans s1.1 s2.1, s2.2.1,
   fun a ha => ((s2.2.2 a (lt_of_lt_of_le ha s1.1)).trans (s1.2.2 a ha))⟩

theorem halloc_step {h : Heap} {c : HCell} (hwf : HeapWF h) :
    StepAll h (halloc h c).2 := by
  refine ⟨by simp [halloc], ?_, ?_⟩
  · intro p hp
    simp only [halloc] at hp
    rcases List.mem_append.mp hp with h1 | h2
    · exact lt_trans (hwf p h1) (by simp [halloc])
    · simp at h2
      simp [halloc, h2]
  · intro a ha
    simp only [hlookup, halloc]
    rw [alookup_append]
    cases hl : alookup h.cells a with
    | some c0 => simp
    | none =>
      simp only
      have : a ≠ h.next := Nat.ne_of_lt ha
      simp [alookup, this]

theorem halloc_addr {h : Heap} {c : HCell} : (halloc h c).1 = h.next := rfl

/-- The frame condition a walk modifier must respect: it may allocate and
it may mutate the cell its argument points at (which the walk always
hands it freshly copied), but no other pre-existing cell. -/
def ModifierFrame (modifier : Heap → HVal → Except PyErr (HVal × Heap)) : Prop :=
  ∀ h v v' h', HeapWF h → modifier h v = .ok (v', h') →
    h.next ≤ h'.next ∧ HeapWF h'
      ∧ ∀ a, a < h.next → rootAddr v ≠ some a → hlookup h' a = hlookup h a

mutual

theorem deepcopyH_frame : ∀ (fuel : Nat) (h : Heap) (v : HVal) (v' : HVal)
    (h' : Heap), HeapWF h → deepcopyH fuel h v = .ok (v', h') →
    StepAll h h' ∧ (∀ a', rootAddr v' = some a' → h.next ≤ a')
  | 0, h, v => by
    intro v' h' hwf hok
    simp [deepcopyH] at hok
  | fuel + 1, h, .hatom g => by
    intro v' h' hwf hok
    simp only [deepcopyH] at hok
    injection hok with hok
    injection hok with h1 h2
    subst h1; subst h2
    exact ⟨StepAll.same hwf, by intro a' ha'; simp [rootAddr] at ha'⟩
  | fuel + 1, h, .href a => by
    intro v' h' hwf hok
    simp only [deepcopyH] at hok
    cases hlu : hlookup h a with
    | none => rw [hlu] at hok; simp at hok
    | some c =>
      rw [hlu] at hok
      cases c with
      | hdict es =>
        simp only [bind, Except.bind] at hok
        cases hde : deepcopyHE fuel h es with
        | error e => rw [hde] at hok; simp at hok
        | ok p =>
          rw [hde] at hok
          obtain ⟨es', h1⟩ := p
          simp only at hok
          injection hok with hok
          injection hok with h1eq h2eq
          have hfr := deepcopyHE_frame fuel h es es' h1 hwf hde
          have hal := halloc_step (c := HCell.hdict es') hfr.2.1
          constructor
          · rw [← h2eq]
            exact hfr.trans hal
          · intro a' ha'
            rw [← h1eq] at ha'
            simp only [rootAddr] at ha'
            injection ha' with ha'
            rw [← ha', halloc_addr]
            exact hfr.1
      | hlist xs =>
        simp only [bind, Except.bind] at hok
        cases hde : deepcopyHL fuel h xs with
        | error e => rw [hde] at hok; simp at hok
        | ok p =>
          rw [hde] at hok
          obtain ⟨xs', h1⟩ := p
          simp only at hok
          injection hok with hok
          injection hok with h1eq h2eq
          have hfr := deepcopyHL_frame fuel h xs xs' h1 hwf hde
          have hal := halloc_step (c := HCell.hlist xs') hfr.2.1
          constructor
          · rw [← h2eq]
            exact hfr.trans hal
          · intro a' ha'
            rw [← h1eq] at ha'
            simp only [rootAddr] at ha'
            injection ha' with ha'
            rw [← ha', halloc_addr]
            exact hfr.1

theorem deepcopyHE_frame : ∀ (fuel : Nat) (h : Heap)
    (es : List (String × HVal)) (es' : List (String × HVal)) (h' : Heap),
    HeapWF h → deepcopyHE fuel h es = .ok (es', h') → StepAll h h'
  | 0, h, es => by
    intro es' h' hwf hok
    simp [deepcopyHE] at hok
  | fuel + 1, h, [] => by
    intro es' h' hwf hok
    simp only [deepcopyHE] at hok
    injection hok with hok
    injection hok with h1 h2
    subst h2
    exact StepAll.same hwf
  | fuel + 1, h, (k, v) :: r => by
    intro es' h' hwf hok
    simp only [deepcopyHE, bind, Except.bind] at hok
    cases hv : deepcopyH fuel h v with
    | error e => rw [hv] at hok; simp at hok
    | ok p =>
      rw [hv] at hok
      obtain ⟨v', h1⟩ := p
      simp only at hok
      cases hr : deepcopyHE fuel h1 r with
      | error e => rw [hr] at hok; simp at hok
      | ok p2 =>
        rw [hr] at hok
        obtain ⟨rs, h2⟩ := p2
        simp only at hok
        injection hok with hok
        injection hok with h1eq h2eq
        subst h2eq
        exact ((deepcopyH_frame fuel h v v' h1 hwf hv).1).trans
          (deepcopyHE_frame fuel h1 r rs _ ((deepcopyH_frame fuel h v v' h1 hwf hv).1).2.1 hr)

theorem deepcopyHL_frame : ∀ (fuel : Nat) (h : Heap)
    (xs : List HVal) (xs' : List HVal) (h' : Heap),
    HeapWF h → deepcopyHL fuel h xs = .ok (xs', h') → StepAll h h'
  | 0, h, xs => by
    intro xs' h' hwf hok
    simp [deepcopyHL] at hok
  | fuel + 1, h, [] => by
    intro xs' h' hwf hok
    simp only [deepcopyHL] at hok
    injection hok with hok
    injection hok with h1 h2
    subst h2
    exact StepAll.same hwf
  | fuel + 1, h, v :: r => by
    intro xs' h' hwf hok
    simp only [deepcopyHL, bind, Except.bind] at hok
    cases hv : deepcopyH fuel h v with
    | error e => rw [hv] at hok; simp at hok
    | ok p =>
      rw [hv] at hok
      obtain ⟨v', h1⟩ := p
      simp only at hok
      cases hr : deepcopyHL fuel h1 r with
      | error e => rw [hr] at hok; simp at hok
      | ok p2 =>
        rw [hr] at hok
        obtain ⟨rs, h2⟩ := p2
        simp only at hok
        injection hok with hok
        injection hok with h1eq h2eq
        subst h2eq
        exact ((deepcopyH_frame fuel h v v' h1 hwf hv).1).trans
          (deepcopyHL_frame fuel h1 r rs _ ((deepcopyH_frame fuel h v v' h1 hwf hv).1).2.1 hr)

end

mutual

theorem modify_dependencies_heap_frame
    (modifier : Heap → HVal → Except PyErr (HVal × Heap))
    (is_mineH : Heap → HVal → Bool) (hmod : ModifierFrame modifier) :
    ∀ (fuel : Nat) (h : Heap) (v : HVal) (top : Bool) (v' : HVal) (h' : Heap),
      HeapWF h →
      modify_dependencies_heap modifier is_mineH fuel h v top = .ok (v', h') →
      StepAll h h'
  | 0, h, v, top => by
    intro v' h' hwf hok
    simp [modify_dependencies_heap] at hok
  | fuel + 1, h, v, top => by
    intro v' h' hwf hok
    simp only [modify_dependencies_heap, bind, Except.bind] at hok
    cases hdc : deepcopyH fuel h v with
    | error e => rw [hdc] at hok; simp at hok
    | ok p1 =>
      rw [hdc] at hok
      obtain ⟨v1, h1⟩ := p1
      simp only at hok
      have dfr := deepcopyH_frame fuel h v v1 h1 hwf hdc
      have step1 : StepAll h h1 := dfr.1
      cases hguard : (is_mineH h1 v1 && !top) with
      | false =>
        rw [hguard] at hok
        simp only [Bool.false_eq_true, if_false] at hok
        exact step1.trans (modify_after_frame modifier is_mineH hmod fuel h1 v1 v' h' step1.2.1 hok)
      | true =>
        rw [hguard] at hok
        simp only [if_true] at hok
        cases hm2 : modifier h1 v1 with
        | error e => rw [hm2] at hok; simp at hok
        | ok p2 =>
          rw [hm2] at hok
          obtain ⟨v2, h2⟩ := p2
          simp only at hok
          have hm2f := hmod h1 v1 v2 h2 step1.2.1 hm2
          have step2 : StepAll h h2 := by
            refine ⟨le_trans step1.1 hm2f.1, hm2f.2.1, ?_⟩
            intro a ha
            have ha1 : a < h1.next := lt_of_lt_of_le ha step1.1
            have hroot : rootAddr v1 ≠ some a := by
              intro hc
              exact absurd (dfr.2 a hc) (not_le.mpr ha)
            exact (hm2f.2.2 a ha1 hroot).trans (step1.2.2 a ha)
          exact step2.trans (modify_after_frame modifier is_mineH hmod fuel h2 v2 v' h' step2.2.1 hok)

/-- The tail of a walk step: the isinstance dispatch on the (possibly
modified) node. -/
theorem modify_after_frame
    (modifier : Heap → HVal → Except PyErr (HVal × Heap))
    (is_mineH : Heap → HVal → Bool) (hmod : ModifierFrame modifier) :
    ∀ (fuel : Nat) (h2 : Heap) (v2 : HVal) (v' : HVal) (h' : Heap),
      HeapWF h2 →
      (match v2 with
        | .hatom g => .ok (.hatom g, h2)
        | .href a =>
          match hlookup h2 a with
          | none => .ok (.href a, h2)
          | some (.hdict es) => do
            let (es', h3) ← modify_entries_heap modifier is_mineH fuel h2 es
            let p := halloc h3 (.hdict es')
            .ok (.href p.1, p.2)
          | some (.hlist xs) => do
            let (xs', h3) ← modify_items_heap modifier is_mineH fuel h2 xs
            let p := halloc h3 (.hlist xs')
            .ok (.href p.1, p.2) : Except PyErr (HVal × Heap)) = .ok (v', h') →
      StepAll h2 h'
  | fuel, h2, .hatom g => by
    intro v' h' hwf hok
    simp only at hok
    injection hok with hok
    injection hok with h1eq h2eq
    subst h2eq
    exact StepAll.same hwf
  | fuel, h2, .href a => by
    intro v' h' hwf hok
    simp only at hok
    cases hlu : hlookup h2 a with
    | none =>
      rw [hlu] at hok
      injection hok with hok
      injection hok with h1eq h2eq
      subst h2eq
      exact StepAll.same hwf
    | some c =>
      rw [hlu] at hok
      cases c with
      | hdict es =>
        simp only [bind, Except.bind] at hok
        cases he : modify_entries_heap modifier is_mineH fuel h2 es with
        | error e => rw [he] at hok; simp at hok
        | ok p =>
          rw [he] at hok
          obtain ⟨es', h3⟩ := p
          simp only at hok
          injection hok with hok
          injection hok with h1eq h2eq
          have efr := modify_entries_heap_frame modifier is_mineH hmod fuel h2 es es' h3 hwf he
          rw [← h2eq]
          exact efr.trans (halloc_step efr.2.1)
      | hlist xs =>
        simp only [bind, Except.bind] at hok
        cases he : modify_items_heap modifier is_mineH fuel h2 xs with
        | error e => rw [he] at hok; simp at hok
        | ok p =>
          rw [he] at hok
          obtain ⟨xs', h3⟩ := p
          simp only at hok
          injection hok with hok
          injection hok with h1eq h2eq
          have efr := modify_items_heap_frame modifier is_mineH hmod fuel h2 xs xs' h3 hwf he
          rw [← h2eq]
          exact efr.trans (halloc_step efr.2.1)

theorem modify_entries_heap_frame
    (modifier : Heap → HVal → Except PyErr (HVal × Heap))
    (is_mineH : Heap → HVal → Bool) (hmod : ModifierFrame modifier) :
    ∀ (fuel : Nat) (h : Heap) (es : List (String × HVal))
      (es' : List (String × HVal)) (h' : Heap),
      HeapWF h → modify_entries_heap modifier is_mineH fuel h es = .ok (es', h') →
      StepAll h h'
  | 0, h, es => by
    intro es' h' hwf hok
    simp [modify_entries_heap] at hok
  | fuel + 1, h, [] => by
    intro es' h' hwf hok
    simp only [modify_entries_heap] at hok
    injection hok with hok
    injection hok with h1eq h2eq
    subst h2eq
    exact StepAll.same hwf
  | fuel + 1, h, (k, v) :: r => by
    intro es' h' hwf hok
    simp only [modify_entries_heap, bind, Except.bind] at hok
    cases hv : modify_dependencies_heap modifier is_mineH fuel h v false with
    | error e => rw [hv] at hok; simp at hok
    | ok p =>
      rw [hv] at hok
      obtain ⟨w, h1⟩ := p
      simp only at hok
      cases hr : modify_entries_heap modifier is_mineH fuel h1 r with
      | error e => rw [hr] at hok; simp at hok
      | ok p2 =>
        rw [hr] at hok
        obtain ⟨rs, h2⟩ := p2
        simp only at hok
        injection hok with hok
        injection hok with h1eq h2eq
        subst h2eq
        have s1 := modify_dependencies_heap_frame modifier is_mineH hmod fuel h v false w h1 hwf hv
        exact s1.trans (modify_entries_heap_frame modifier is_mineH hmod fuel h1 r rs _ s1.2.1 hr)

theorem modify_items_heap_frame
    (modifier : Heap → HVal → Except PyErr (HVal × Heap))
    (is_mineH : Heap → HVal → Bool) (hmod : ModifierFrame modifier) :
    ∀ (fuel : Nat) (h : Heap) (xs : List HVal) (xs' : List HVal) (h' : Heap),
      HeapWF h → modify_items_heap modifier is_mineH fuel h xs = .ok (xs', h') →
      StepAll h h'
  | 0, h, xs => by
    intro xs' h' hwf hok
    simp [modify_items_heap] at hok
  | fuel + 1, h, [] => by
    intro xs' h' hwf hok
    simp only [modify_items_heap] at hok
    injection hok with hok
    injection hok with h1eq h2eq
    subst h2eq
    exact StepAll.same hwf
  | fuel + 1, h, v :: r => by
    intro xs' h' hwf hok
    simp only [modify_items_heap, bind, Except.bind] at hok
    cases hv : modify_dependencies_heap modifier is_mineH fuel h v false with
    | error e => rw [hv] at hok; simp at hok
    | ok p =>
      rw [hv] at hok
      obtain ⟨w, h1⟩ := p
      simp only at hok
      cases hr : modify_items_heap modifier is_mineH fuel h1 r with
      | error e => rw [hr] at hok; simp at hok
      | ok p2 =>
        rw [hr] at hok
        obtain ⟨rs, h2⟩ := p2
        simp only at hok
        injection hok with hok
        injection hok with h1eq h2eq
        subst h2eq
        have s1 := modify_dependencies_heap_frame modifier is_mineH hmod fuel h v false w h1 hwf hv
        exact s1.trans (modify_items_heap_frame modifier is_mineH hmod fuel h1 r rs _ s1.2.1 hr)

end

mutual

/-- Read the content tree a heap value denotes (the value the caller
sees).  Fuel bounds the recursion. -/
def readH : Nat → Heap → HVal → Except PyErr GVal
  | 0, _, _ => .error .recursionError
  | _ + 1, _, .hatom g => .ok g
  | fuel + 1, h, .href a =>
    match hlookup h a with
    | none => .error (.keyError "dangling reference")
    | some (.hdict es) => do
      let gs ← readHE fuel h es
      .ok (.vdict gs)
    | some (.hlist xs) => do
      let gs ← readHL fuel h xs
      .ok (.vlist gs)

/-- Read dict entries. -/
def readHE : Nat → Heap → List (String × HVal) →
    Except PyErr (List (String × GVal))
  | 0, _, _ => .error .recursionError
  | _ + 1, _, [] => .ok []
  | fuel + 1, h, (k, v) :: r => do
    let g ← readH fuel h v
    let gs ← readHE fuel h r
    .ok ((k, g) :: gs)

/-- Read list items. -/
def readHL : Nat → Heap → List HVal → Except PyErr (List GVal)
  | 0, _, _ => .error .recursionError
  | _ + 1, _, [] => .ok []
  | fuel + 1, h, v :: r => do
    let g ← readH fuel h v
    let gs ← readHL fuel h r
    .ok (g :: gs)

end

mutual

theorem readH_preserved {h h' : Heap} (hwf : HeapWF h)
    (hpres : ∀ a, a < h.next → hlookup h' a = hlookup h a) :
    ∀ (fuel : Nat) (v : HVal) (g : GVal),
      readH fuel h v = .ok g → readH fuel h' v = .ok g
  | 0, v => by intro g hr; simp [readH] at hr
  | fuel + 1, .hatom g0 => by
    intro g hr
    simpa [readH] using hr
  | fuel + 1, .href a => by
    intro g hr
    simp only [readH] at hr ⊢
    cases hlu : hlookup h a with
    | none => rw [hlu] at hr; simp at hr
    | some c =>
      rw [hlu] at hr
      have ha : a < h.next := hwf _ (alookup_mem hlu)
      rw [hpres a ha, hlu]
      cases c with
      | hdict es =>
        simp only [bind, Except.bind] at hr ⊢
        cases hre : readHE fuel h es with
        | error e => rw [hre] at hr; simp at hr
        | ok gs =>
          rw [hre] at hr
          rw [readHE_preserved hwf hpres fuel es gs hre]
          exact hr
      | hlist xs =>
        simp only [bind, Except.bind] at hr ⊢
        cases hre : readHL fuel h xs with
        | error e => rw [hre] at hr; simp at hr
        | ok gs =>
          rw [hre] at hr
          rw [readHL_preserved hwf hpres fuel xs gs hre]
          exact hr

theorem readHE_preserved {h h' : Heap} (hwf : HeapWF h)
    (hpres : ∀ a, a < h.next → hlookup h' a = hlookup h a) :
    ∀ (fuel : Nat) (es : List (String × HVal)) (gs : List (String × GVal)),
      readHE fuel h es = .ok gs → readHE fuel h' es = .ok gs
  | 0, es => by intro gs hr; simp [readHE] at hr
  | fuel + 1, [] => by
    intro gs hr
    simpa [readHE] using hr
  | fuel + 1, (k, v) :: r => by
    intro gs hr
    simp only [readHE, bind, Except.bind] at hr ⊢
    cases hg : readH fuel h v with
    | error e => rw [hg] at hr; simp at hr
    | ok g0 =>
      rw [hg] at hr
      rw [readH_preserved hwf hpres fuel v g0 hg]
      cases hgs : readHE fuel h r with
      | error e => rw [hgs] at hr; simp at hr
      | ok gs0 =>
        rw [hgs] at hr
        rw [readHE_preserved hwf hpres fuel r gs0 hgs]
        exact hr

theorem readHL_preserved {h h' : Heap} (hwf : HeapWF h)
    (hpres : ∀ a, a < h.next → hlookup h' a = hlookup h a) :
    ∀ (fuel : Nat) (xs : List HVal) (gs : List GVal),
      readHL fuel h xs = .ok gs → readHL fuel h' xs = .ok gs
  | 0, xs => by intro gs hr; simp [readHL] at hr
  | fuel + 1, [] => by
    intro gs hr
    simpa [readHL] using hr
  | fuel + 1, v :: r => by
    intro gs hr
    simp only [readHL, bind, Except.bind] at hr ⊢
    cases hg : readH fuel h v with
    | error e => rw [hg] at hr; simp at hr
    | ok g0 =>
      rw [hg] at hr
      rw [readH_preserved hwf hpres fuel v g0 hg]
      cases hgs : readHL fuel h r with
      | error e => rw [hgs] at hr; simp at hr
      | ok gs0 =>
        rw [hgs] at hr
        rw [readHL_preserved hwf hpres fuel r gs0 hgs]
        exact hr

end

/-- C5.  The dependency-graph walker deep-copies its argument before
doing anything else (l.249) and rebuilds dict and list nodes into fresh
cells, so for every input tree and every composed pipeline whose
modifier respects the walk's framing discipline (it may allocate fresh
cells and mutate at most the freshly copied node handed to it — as the
deep/keyed encode modifiers, which only build new dicts, and the decode
modifiers, which pop keys from the fresh copy, all do), a completed walk
leaves every pre-existing heap cell unchanged, and the caller's input
value reads back exactly as before the call. -/
theorem C5_walker_leaves_callers_input_unchanged
    (modifier : Heap → HVal → Except PyErr (HVal × Heap))
    (is_mineH : Heap → HVal → Bool) (fuel fuelR : Nat)
    (h h' : Heap) (v v' : HVal) (top : Bool) (g : GVal)
    (hmod : ModifierFrame modifier)
    (hwf : HeapWF h)
    (hok : modify_dependencies_heap modifier is_mineH fuel h v top = .ok (v', h'))
    (hread : readH fuelR h v = .ok g) :
    (∀ a, a < h.next → hlookup h' a = hlookup h a)
    ∧ readH fuelR h' v = .ok g := by
  have hstep := modify_dependencies_heap_frame modifier is_mineH hmod fuel h v top v' h' hwf hok
  exact ⟨hstep.2.2, readH_preserved hwf hstep.2.2 fuelR v g hread⟩

/-- C5 witness: the theorem applied to a concrete two-entry dict cell
with an identity modifier (a modifier that neither allocates nor
mutates, which respects the modifier frame). -/
theorem C5_walker_leaves_callers_input_unchanged_witness :
    ModifierFrame (fun h v => .ok (v, h))
    ∧ HeapWF ⟨[(0, .hdict [("a", .hatom (.vint 1)), ("b", .hatom (.vstr "s"))])], 1⟩
    ∧ modify_dependencies_heap (fun h v => .ok (v, h)) (fun _ _ => false) 5
        ⟨[(0, .hdict [("a", .hatom (.vint 1)), ("b", .hatom (.vstr "s"))])], 1⟩
        (.href 0) true
      = .ok (.href 2,
          ⟨[(0, .hdict [("a", .hatom (.vint 1)), ("b", .hatom (.vstr "s"))]),
            (1, .hdict [("a", .hatom (.vint 1)), ("b", .hatom (.vstr "s"))]),
            (2, .hdict [("a", .hatom (.vint 1)), ("b", .hatom (.vstr "s"))])], 3⟩)
    ∧ readH 6 ⟨[(0, .hdict [("a", .hatom (.vint 1)), ("b", .hatom (.vstr "s"))])], 1⟩
        (.href 0)
      = .ok (.vdict [("a", .vint 1), ("b", .vstr "s")])
    ∧ ((∀ a, a < (⟨[(0, .hdict [("a", .hatom (.vint 1)), ("b", .hatom (.vstr "s"))])], 1⟩ : Heap).next →
          hlookup (⟨[(0, .hdict [("a", .hatom (.vint 1)), ("b", .hatom (.vstr "s"))]),
            (1, .hdict [("a", .hatom (.vint 1)), ("b", .hatom (.vstr "s"))]),
            (2, .hdict [("a", .hatom (.vint 1)), ("b", .hatom (.vstr "s"))])], 3⟩ : Heap) a
            = hlookup ⟨[(0, .hdict [("a", .hatom (.vint 1)), ("b", .hatom (.vstr "s"))])], 1⟩ a)
        ∧ readH 6 ⟨[(0, .hdict [("a", .hatom (.vint 1)), ("b", .hatom (.vstr "s"))]),
            (1, .hdict [("a", .hatom (.vint 1)), ("b", .hatom (.vstr "s"))]),
            (2, .hdict [("a", .hatom (.vint 1)), ("b", .hatom (.vstr "s"))])], 3⟩ (.href 0)
          = .ok (.vdict [("a", .vint 1), ("b", .vstr "s")])) := by
  have hmod : ModifierFrame (fun h v => .ok (v, h)) := by
    intro h v v' h' hwf hok
    injection hok with hok
    injection hok with h1 h2
    subst h2
    exact ⟨le_refl _, hwf, fun a _ _ => rfl⟩
  have hwf : HeapWF ⟨[(0, .hdict [("a", .hatom (.vint 1)), ("b", .hatom (.vstr "s"))])], 1⟩ := by
    intro p hp
    simp at hp
    simp [hp]
  refine ⟨hmod, hwf, by decide, by decide, ?_⟩
  exact C5_walker_leaves_callers_input_unchanged (fun h v => .ok (v, h)) (fun _ _ => false)
    5 6 _ _ (.href 0) (.href 2) true _ hmod hwf (by decide) (by decide)

/-- dict.pop on a heap dict cell: in-place removal (l.306-307). -/
def popH (h : Heap) (a : Nat) (k : String) : Except PyErr (HVal × Heap) :=
  match hlookup h a with
  | some (.hdict es) => do
    let (v, es') ← apop es k
    .ok (v, hstore h a (.hdict es'))
  | some (.hlist _) => .error (.attributeError "pop on a list")
  | none => .error (.keyError "dangling reference")

/-- Whether a heap value is the Python None. -/
def isNoneH : HVal → Bool
  | .hatom .vnone => true
  | _ => false

/-- _from_dict (l.305-312) on the heap: the two pops mutate the caller's
dict cell in place before the class is resolved; the instance is then
built from the mutated dict (its content read out, fuelR bounding the
readout) under the canonical entity contract. -/
def _from_dict_heap (remap env : List ((String × String) × (String × String)))
    (fuelR : Nat) (h : Heap) (s : SysState) (v : HVal) :
    Except PyErr (GVal × (Heap × SysState)) :=
  match v with
  | .hatom _ => .error (.attributeError "pop on a non dict")
  | .href a => do
    let (mv, h1) ← popH h a "__module__"
    let (qv, h2) ← popH h1 a "__qualname__"
    if isNoneH qv || isNoneH mv then
      .error (.keyError
        "__qualname__ or __module__ key not found; unable to reconstitute from dict")
    else
      match mv, qv with
      | .hatom (.vstr ms), .hatom (.vstr qs) => do
        let (cls, s1) ← get_class remap env s ms qs
        let fsv ← readH fuelR h2 (.href a)
        match fsv with
        | .vdict fs =>
          .ok (.vobj s1.nextId cls.1 cls.2 fs,
               (h2, { s1 with nextId := s1.nextId + 1 }))
        | _ => .error (.typeError "from dict expects a dict")
      | _, _ => .error (.typeError "module and qualname tags must be strings")

/-- Module-level from_dict (l.291-302) on the heap: only _from_dict_heap
touches the heap; key registration and deduplication run at the content
layer as in from_dict above. -/
def from_dict_heap (cd : String → String → List (String × GVal))
    (remap env : List ((String × String) × (String × String)))
    (fuelR : Nat) (h : Heap) (s : SysState) (v : HVal) :
    Except PyErr (GVal × (Heap × SysState)) := do
  let (obj, hs1) ← _from_dict_heap remap env fuelR h s v
  let ks2 := key_register cd hs1.2 obj
  match alookup ks2.2.instReg ks2.1 with
  | some (some thing) => .ok (thing, (hs1.1, ks2.2))
  | some none => .ok (obj, (hs1.1, ks2.2))
  | none => .ok (obj, (hs1.1, ks2.2))

/-- GufeTokenizable.from_shallow_dict (l.169-171): inside the method body
the name from_dict resolves to the module-level function, so the
classmethod simply delegates to it. -/
def from_shallow_dict_heap (cd : String → String → List (String × GVal))
    (remap env : List ((String × String) × (String × String)))
    (fuelR : Nat) (h : Heap) (s : SysState) (v : HVal) :
    Except PyErr (GVal × (Heap × SysState)) :=
  from_dict_heap cd remap env fuelR h s v

theorem apop_eq_of_lookup {β : Type} {l : List (String × β)} {k : String} {v : β}
    (h : alookup l k = some v) : apop l k = .ok (v, aerase l k) := by
  induction l with
  | nil => simp [alookup] at h
  | cons p r ih =>
    obtain ⟨pk, pv⟩ := p
    by_cases hk : k = pk
    · subst hk
      simp [alookup] at h
      simp [apop, aerase, h]
    · simp [alookup, hk] at h
      simp [apop, aerase, hk, ih h, bind, Except.bind, pure, Except.pure]

theorem alookup_map_store_self {α β : Type} [DecidableEq α] {l : List (α × β)}
    {k : α} {v : β} (h : akeymem l k = true) :
    alookup (l.map (fun p => if p.1 = k then (k, v) else p)) k = some v := by
  induction l with
  | nil => simp [akeymem, alookup] at h
  | cons p r ih =>
    obtain ⟨pk, pv⟩ := p
    by_cases hk : ((pk, pv) : α × β).1 = k
    · rw [List.map_cons, if_pos hk]
      simp [alookup]
    · rw [List.map_cons, if_neg hk]
      simp only at hk
      have hk2 : ¬ k = pk := fun hc => hk hc.symm
      simp only [alookup, if_neg hk2]
      apply ih
      unfold akeymem at h ⊢
      simpa [alookup, hk2] using h

theorem astore_astore_same {α β : Type} [DecidableEq α] {l : List (α × β)}
    {k : α} {c1 c2 : β} (h : akeymem l k = true) :
    astore (astore l k c1) k c2 = astore l k c2 := by
  have hs1 : astore l k c1 = l.map (fun p => if p.1 = k then (k, c1) else p) := by
    unfold astore
    rw [if_pos h]
  have hmem2 : akeymem (l.map (fun p => if p.1 = k then (k, c1) else p)) k = true := by
    unfold akeymem
    rw [alookup_map_store_self h]
    rfl
  rw [hs1]
  unfold astore
  rw [if_pos hmem2, if_pos h, List.map_map]
  apply List.map_congr_left
  intro p hp
  by_cases hk : p.1 = k
  · simp [hk]
  · simp [hk]

theorem alookup_astore_self {α β : Type} [DecidableEq α] {l : List (α × β)}
    {k : α} {c0 c : β} (hpre : alookup l k = some c0) :
    alookup (astore l k c) k = some c := by
  have hmem : akeymem l k = true := by
    unfold akeymem
    rw [hpre]
    rfl
  unfold astore
  rw [if_pos hmem]
  exact alookup_map_store_self hmem

theorem hlookup_hstore_self {h : Heap} {a : Nat} {c0 c : HCell}
    (hpre : hlookup h a = some c0) : hlookup (hstore h a c) a = some c :=
  alookup_astore_self hpre

theorem hstore_hstore_same {h : Heap} {a : Nat} {c1 c2 : HCell}
    (hmem : akeymem h.cells a = true) :
    hstore (hstore h a c1) a c2 = hstore h a c2 := by
  unfold hstore
  simp [astore_astore_same hmem]

/-- C10.  GufeTokenizable.from_shallow_dict delegates to the module-level
from_dict, whose _from_dict pops the two type tags from the caller's dict
object itself before the class is resolved: after a completed call the
caller's dict cell holds its former entries minus __module__ and
__qualname__, and no longer contains either tag.  (The pops precede class
resolution in _from_dict, so the mutation happens even earlier than the
lookup whose result this theorem conditions on.) -/
theorem C10_from_shallow_dict_pops_callers_tags
    (cd : String → String → List (String × GVal))
    (remap env : List ((String × String) × (String × String)))
    (fuelR : Nat) (h : Heap) (s : SysState) (a : Nat)
    (es : List (String × HVal)) (ms qs : String) (cls : String × String)
    (fs : List (String × GVal))
    (hcell : hlookup h a = some (.hdict es))
    (hm : alookup es "__module__" = some (.hatom (.vstr ms)))
    (hq : alookup es "__qualname__" = some (.hatom (.vstr qs)))
    (hnd : (es.map Prod.fst).Nodup)
    (hcls : alookup s.classReg (ms, qs) = some cls)
    (hread : readH fuelR
        (hstore h a (.hdict (aerase (aerase es "__module__") "__qualname__")))
        (.href a) = .ok (.vdict fs)) :
    (∃ r s2, from_shallow_dict_heap cd remap env fuelR h s (.href a)
        = .ok (r, (hstore h a
            (.hdict (aerase (aerase es "__module__") "__qualname__")), s2)))
    ∧ hlookup (hstore h a
          (.hdict (aerase (aerase es "__module__") "__qualname__"))) a
        = some (.hdict (aerase (aerase es "__module__") "__qualname__"))
    ∧ alookup (aerase (aerase es "__module__") "__qualname__") "__module__" = none
    ∧ alookup (aerase (aerase es "__module__") "__qualname__") "__qualname__" = none := by
  have hmem : akeymem h.cells a = true := by
    unfold akeymem
    unfold hlookup at hcell
    rw [hcell]
    rfl
  have hpop1 : popH h a "__module__"
      = .ok (.hatom (.vstr ms), hstore h a (.hdict (aerase es "__module__"))) := by
    simp [popH, hcell, apop_eq_of_lookup hm, bind, Except.bind]
  have hlu1 : hlookup (hstore h a (.hdict (aerase es "__module__"))) a
      = some (.hdict (aerase es "__module__")) :=
    hlookup_hstore_self hcell
  have hq1 : alookup (aerase es "__module__") "__qualname__"
      = some (.hatom (.vstr qs)) := by
    rw [alookup_aerase_ne (by decide)]
    exact hq
  have hpop2 : popH (hstore h a (.hdict (aerase es "__module__"))) a "__qualname__"
      = .ok (.hatom (.vstr qs),
          hstore h a (.hdict (aerase (aerase es "__module__") "__qualname__"))) := by
    simp [popH, hlu1, apop_eq_of_lookup hq1, bind, Except.bind]
    rw [hstore_hstore_same hmem]
  have hfd : _from_dict_heap remap env fuelR h s (.href a)
      = .ok (.vobj s.nextId cls.1 cls.2 fs,
          (hstore h a (.hdict (aerase (aerase es "__module__") "__qualname__")),
           { s with nextId := s.nextId + 1 })) := by
    simp [_from_dict_heap, hpop1, hpop2, isNoneH, get_class, hcls, hread,
      bind, Except.bind]
  refine ⟨?_, hlookup_hstore_self hcell, ?_, ?_⟩
  · simp only [from_shallow_dict_heap, from_dict_heap, hfd, bind, Except.bind]
    cases hreg : alookup (key_register cd { s with nextId := s.nextId + 1 }
        (.vobj s.nextId cls.1 cls.2 fs)).2.instReg
        (key_register cd { s with nextId := s.nextId + 1 }
          (.vobj s.nextId cls.1 cls.2 fs)).1 with
    | none => exact ⟨_, _, rfl⟩
    | some o =>
      cases o with
      | none => exact ⟨_, _, rfl⟩
      | some thing => exact ⟨_, _, rfl⟩
  · rw [alookup_aerase_ne (by decide)]
    exact alookup_aerase_self hnd
  · exact alookup_aerase_self (aerase_keys_sublist.nodup hnd)

/-- C10 witness: the theorem applied to a concrete tagged dict cell;
after the call the cell holds only the x field. -/
theorem C10_from_shallow_dict_pops_callers_tags_witness :
    hlookup ⟨[(0, .hdict [("__module__", .hatom (.vstr "M")),
        ("__qualname__", .hatom (.vstr "C")), ("x", .hatom (.vint 1))])], 1⟩ 0
      = some (.hdict [("__module__", .hatom (.vstr "M")),
          ("__qualname__", .hatom (.vstr "C")), ("x", .hatom (.vint 1))])
    ∧ (∃ r s2, from_shallow_dict_heap cdNone [] [] 6
        ⟨[(0, .hdict [("__module__", .hatom (.vstr "M")),
            ("__qualname__", .hatom (.vstr "C")), ("x", .hatom (.vint 1))])], 1⟩
        ⟨[(("M", "C"), ("M", "C"))], [], 0⟩ (.href 0)
        = .ok (r, (hstore ⟨[(0, .hdict [("__module__", .hatom (.vstr "M")),
            ("__qualname__", .hatom (.vstr "C")), ("x", .hatom (.vint 1))])], 1⟩ 0
            (.hdict (aerase (aerase [("__module__", HVal.hatom (.vstr "M")),
              ("__qualname__", .hatom (.vstr "C")), ("x", .hatom (.vint 1))]
              "__module__") "__qualname__")), s2)))
    ∧ alookup (aerase (aerase [("__module__", HVal.hatom (.vstr "M")),
        ("__qualname__", .hatom (.vstr "C")), ("x", .hatom (.vint 1))]
        "__module__") "__qualname__") "__module__" = none
    ∧ alookup (aerase (aerase [("__module__", HVal.hatom (.vstr "M")),
        ("__qualname__", .hatom (.vstr "C")), ("x", .hatom (.vint 1))]
        "__module__") "__qualname__") "__qualname__" = none := by
  have h := C10_from_shallow_dict_pops_callers_tags cdNone [] [] 6
    ⟨[(0, .hdict [("__module__", .hatom (.vstr "M")),
        ("__qualname__", .hatom (.vstr "C")), ("x", .hatom (.vint 1))])], 1⟩
    ⟨[(("M", "C"), ("M", "C"))], [], 0⟩ 0
    [("__module__", .hatom (.vstr "M")), ("__qualname__", .hatom (.vstr "C")),
     ("x", .hatom (.vint 1))]
    "M" "C" ("M", "C") [("x", .vint 1)]
    (by decide) (by decide) (by decide) (by decide) (by decide) (by decide)
  exact ⟨by decide, h.1, h.2.2.1, h.2.2.2⟩

mutual

/-- Entity-contract well-formedness, the assumptions of spec sections 3
and 4.1 on concrete entities: field names follow the class declaration cf
(a deterministic _to_dict emits a fixed key order), fields never use the
reserved tag names, class defaults are atomic values declared among the
class fields, plain dicts never carry both type tags (such a dict would
be misread as an entity on decode), and key strings occur only on the
wire, not inside entities. -/
def wfB (cd : String → String → List (String × GVal))
    (cf : String → String → List String) : GVal → Bool
  | .vnone => true
  | .vbool _ => true
  | .vint _ => true
  | .vstr _ => true
  | .vkeystr _ _ => false
  | .vdict es =>
    decide ((es.map Prod.fst).Nodup)
      && (!(akeymem es "__qualname__" && akeymem es "__module__")
      && wfBE cd cf es)
  | .vlist xs => wfBL cd cf xs
  | .vobj _ m q fs =>
    decide (fs.map Prod.fst = cf m q)
      && (decide ((cf m q).Nodup)
      && (!(decide ("__module__" ∈ cf m q))
      && (!(decide ("__qualname__" ∈ cf m q))
      && (decide (((cd m q).map Prod.fst).Nodup)
      && ((cd m q).all (fun p => isAtomB p.2 && decide (p.1 ∈ cf m q))
      && wfBE cd cf fs)))))

/-- wfB on dict entries. -/
def wfBE (cd : String → String → List (String × GVal))
    (cf : String → String → List String) : List (String × GVal) → Bool
  | [] => true
  | (_, v) :: r => wfB cd cf v && wfBE cd cf r

/-- wfB on list items. -/
def wfBL (cd : String → String → List (String × GVal))
    (cf : String → String → List String) : List GVal → Bool
  | [] => true
  | v :: r => wfB cd cf v && wfBL cd cf r

end

/-- An instance whose own fields avoid the reserved tag names. -/
def NoTagFieldsB : GVal → Bool
  | .vobj _ _ _ fs => !(akeymem fs "__module__") && !(akeymem fs "__qualname__")
  | _ => true

mutual

/-- Every class tag occurring on an instance inside the value resolves in
the class registry to itself (self-registration at definition time,
l.22-31). -/
def resolvesB (reg : List ((String × String) × (String × String))) : GVal → Bool
  | .vobj _ m q fs =>
    decide (alookup reg (m, q) = some (m, q)) && resolvesBE reg fs
  | .vdict es => resolvesBE reg es
  | .vlist xs => resolvesBL reg xs
  | _ => true

/-- resolvesB on dict entries. -/
def resolvesBE (reg : List ((String × String) × (String × String))) :
    List (String × GVal) → Bool
  | [] => true
  | (_, v) :: r => resolvesB reg v && resolvesBE reg r

/-- resolvesB on list items. -/
def resolvesBL (reg : List ((String × String) × (String × String))) :
    List GVal → Bool
  | [] => true
  | v :: r => resolvesB reg v && resolvesBL reg r

end

mutual

/-- No live instance occurs inside the value (the shape of wire data). -/
def objFreeB : GVal → Bool
  | .vobj _ _ _ _ => false
  | .vdict es => objFreeBE es
  | .vlist xs => objFreeBL xs
  | _ => true

/-- objFreeB on dict entries. -/
def objFreeBE : List (String × GVal) → Bool
  | [] => true
  | (_, v) :: r => objFreeB v && objFreeBE r

/-- objFreeB on list items. -/
def objFreeBL : List GVal → Bool
  | [] => true
  | v :: r => objFreeB v && objFreeBL r

end

mutual

/-- Every dict node in the tree has pairwise distinct keys. -/
def nodupDeepB : GVal → Bool
  | .vdict es => decide ((es.map Prod.fst).Nodup) && nodupDeepBE es
  | .vlist xs => nodupDeepBL xs
  | .vobj _ _ _ fs => decide ((fs.map Prod.fst).Nodup) && nodupDeepBE fs
  | _ => true

/-- nodupDeepB on dict entries. -/
def nodupDeepBE : List (String × GVal) → Bool
  | [] => true
  | (_, v) :: r => nodupDeepB v && nodupDeepBE r

/-- nodupDeepB on list items. -/
def nodupDeepBL : List GVal → Bool
  | [] => true
  | v :: r => nodupDeepB v && nodupDeepBL r

end

/-- A registry instance determines its encoding among well-formed
entities with its key: this is the invariant part that makes
deduplication sound. -/
def EncInv (cd : String → String → List (String × GVal))
    (cf : String → String → List String) (o : GVal) : Prop :=
  ∀ e', is_gufe_obj e' = true → wfB cd cf e' = true →
    gufe_key cd e' = gufe_key cd o →
    modify_dependencies_encode e' false = modify_dependencies_encode o false

/-- The reachable-state invariant of TOKENIZABLE_REGISTRY: every live
entry holds an instance registered under its own key (entries are only
ever written by the key property, l.70), with tag-free fields, whose
encoding is determined by its key. -/
def StateInv (cd : String → String → List (String × GVal))
    (cf : String → String → List String) (s : SysState) : Prop :=
  ∀ p ∈ s.instReg, ∀ o : GVal, p.2 = some o →
    is_gufe_obj o = true ∧ NoTagFieldsB o = true
      ∧ gufe_key cd o = p.1 ∧ EncInv cd cf o

theorem aerase_sublist {β : Type} {l : List (String × β)} {k : String} :
    List.Sublist (aerase l k) l := by
  induction l with
  | nil => simp [aerase]
  | cons p r ih =>
    obtain ⟨pk, pv⟩ := p
    by_cases h : k = pk
    · subst h
      simp [aerase]
    · simp [aerase, h]
      exact ih

theorem strip_sublist {ds dct : List (String × GVal)} :
    List.Sublist (strip_defaults ds dct) dct := by
  induction ds generalizing dct with
  | nil => simp [strip_defaults]
  | cons p rest ih =>
    obtain ⟨k1, d1⟩ := p
    simp only [strip_defaults]
    split
    · exact (ih).trans aerase_sublist
    · exact ih

theorem alookup_eq_of_mem_nodup {α β : Type} [DecidableEq α]
    {l : List (α × β)} {k : α} {v : β}
    (hm : (k, v) ∈ l) (hnd : (l.map Prod.fst).Nodup) : alookup l k = some v := by
  induction l with
  | nil => cases hm
  | cons p r ih =>
    obtain ⟨pk, pv⟩ := p
    simp only [List.map_cons, List.nodup_cons] at hnd
    rcases List.mem_cons.mp hm with hh | ht
    · injection hh with h1 h2
      subst h1; subst h2
      simp [alookup]
    · have hk : k ≠ pk := by
        intro hc
        subst hc
        exact hnd.1 (List.mem_map.mpr ⟨(k, v), ht, rfl⟩)
      simp [alookup, hk]
      exact ih ht hnd.2

/-- The lookup-level characterization of the include_defaults=False
stripping loop: a key valued at its declared default vanishes, every
other key keeps its value. -/
theorem strip_char {k : String} :
    ∀ (ds dct : List (String × GVal)),
      (dct.map Prod.fst).Nodup → (ds.map Prod.fst).Nodup →
      alookup (strip_defaults ds dct) k =
        match alookup ds k, alookup dct k with
        | some dv, some w => if pyEq w dv then none else some w
        | _, _ => alookup dct k := by
  intro ds
  induction ds with
  | nil =>
    intro dct hdct hds
    simp [strip_defaults, alookup]
  | cons p rest ih =>
    intro dct hdct hds
    obtain ⟨k1, d1⟩ := p
    simp only [List.map_cons, List.nodup_cons] at hds
    simp only [strip_defaults]
    have hnd' : ((if pyEq (pyGetD dct k1) d1 then aerase dct k1 else dct).map
        Prod.fst).Nodup := by
      split
      · exact (List.Sublist.map Prod.fst aerase_sublist).nodup hdct
      · exact hdct
    rw [ih _ hnd' hds.2]
    by_cases hk : k = k1
    · subst hk
      have hrest : alookup rest k = none := alookup_none_iff.mpr hds.1
      rw [hrest]
      cases hlk : alookup dct k with
      | none =>
        have hcell : alookup (if pyEq (pyGetD dct k) d1 then aerase dct k else dct) k
            = none := by
          split
          · rw [alookup_none_iff] at hlk ⊢
            intro hc
            exact hlk (aerase_keys_sublist.mem hc)
          · exact hlk
        rw [hcell]
        simp [alookup]
      | some w =>
        have hget : pyGetD dct k = w := by simp [pyGetD, hlk]
        rw [hget]
        by_cases hpy : pyEq w d1 = true
        · rw [if_pos hpy]
          rw [alookup_aerase_self hdct]
          simp [alookup, hpy]
        · rw [if_neg hpy]
          rw [hlk]
          simp [alookup, hpy]
    · have hds_k : alookup ((k1, d1) :: rest) k = alookup rest k := by
        simp [alookup, hk]
      have hcell_eq : alookup (if pyEq (pyGetD dct k1) d1 then aerase dct k1 else dct) k
          = alookup dct k := by
        split
        · exact alookup_aerase_ne hk
        · rfl
      rw [hds_k, hcell_eq]

theorem sortPairs_perm {l : List (String × GVal)} : (sortPairs l).Perm l :=
  List.perm_insertionSort _ l

/-- Two lists with the same key sequence, pairwise distinct keys, and the
same lookup function are equal. -/
theorem lookup_ext_eq {β : Type} :
    ∀ {l1 l2 : List (String × β)}, l1.map Prod.fst = l2.map Prod.fst →
      (l1.map Prod.fst).Nodup → (∀ k, alookup l1 k = alookup l2 k) → l1 = l2 := by
  intro l1
  induction l1 with
  | nil =>
    intro l2 hk hnd hl
    cases l2 with
    | nil => rfl
    | cons q r2 => simp at hk
  | cons p r ih =>
    intro l2 hk hnd hl
    obtain ⟨pk, pv⟩ := p
    cases l2 with
    | nil => simp at hk
    | cons q r2 =>
      obtain ⟨qk, qv⟩ := q
      simp only [List.map_cons, List.cons.injEq] at hk
      obtain ⟨hk0, hkr⟩ := hk
      subst hk0
      simp only [List.map_cons, List.nodup_cons] at hnd
      have hv : pv = qv := by
        have := hl pk
        simpa [alookup] using this
      subst hv
      have hrest : r = r2 := by
        apply ih hkr hnd.2
        intro k
        by_cases hkp : k = pk
        · subst hkp
          have h1 : alookup r k = none := alookup_none_iff.mpr hnd.1
          have h2 : alookup r2 k = none := alookup_none_iff.mpr (hkr ▸ hnd.1)
          rw [h1, h2]
        · have := hl k
          simpa [alookup, hkp] using this
      rw [hrest]

theorem aerase_append_left_none {β : Type} {l1 l2 : List (String × β)} {k : String}
    (h : alookup l1 k = none) : aerase (l1 ++ l2) k = l1 ++ aerase l2 k := by
  induction l1 with
  | nil => simp
  | cons p r ih =>
    obtain ⟨pk, pv⟩ := p
    have hk : ¬ k = pk := by
      intro hc
      subst hc
      simp [alookup] at h
    simp [alookup, hk] at h
    simp [aerase, hk, ih h]

theorem encode_entries_append {l1 l2 : List (String × GVal)} :
    encode_entries (l1 ++ l2) = encode_entries l1 ++ encode_entries l2 := by
  induction l1 with
  | nil => simp [encode_entries]
  | cons p r ih =>
    obtain ⟨pk, pv⟩ := p
    simp [encode_entries, ih]

/-- Two lists of keyed pairs that are permutations of each other and
whose key sequences are both sublists of one duplicate-free master list
are equal (the master order pins the arrangement down). -/
theorem perm_eq_of_keys_sublist {β : Type} :
    ∀ (M : List String) (xs ys : List (String × β)), M.Nodup → xs.Perm ys →
      List.Sublist (xs.map Prod.fst) M → List.Sublist (ys.map Prod.fst) M →
      xs = ys := by
  intro M
  induction M with
  | nil =>
    intro xs ys _ hperm hxs hys
    have hx : xs = [] := by
      have := List.sublist_nil.mp hxs
      cases xs with
      | nil => rfl
      | cons p r => simp at this
    have hy : ys = [] := by
      have := List.sublist_nil.mp hys
      cases ys with
      | nil => rfl
      | cons p r => simp at this
    rw [hx, hy]
  | cons m0 M' ih =>
    intro xs ys hnd hperm hxs hys
    simp only [List.nodup_cons] at hnd
    by_cases hm : m0 ∈ xs.map Prod.fst
    · cases xs with
      | nil => simp at hm
      | cons p xs2 =>
        obtain ⟨pk, pv⟩ := p
        simp only [List.map_cons] at hxs
        cases hxs with
        | cons _ htail =>
          exact absurd (htail.subset (by simpa using hm)) hnd.1
        | cons₂ _ htail =>
          have hmemy : (m0, pv) ∈ ys := hperm.mem_iff.mp (List.mem_cons_self _ _)
          cases ys with
          | nil => cases hmemy
          | cons q ys2 =>
            obtain ⟨qk, qv⟩ := q
            simp only [List.map_cons] at hys
            cases hys with
            | cons _ htaily =>
              have : m0 ∈ ys2.map Prod.fst ∨ m0 = qk := by
                rcases List.mem_cons.mp hmemy with hh | ht
                · exact Or.inr (congrArg Prod.fst hh)
                · exact Or.inl (List.mem_map.mpr ⟨(m0, pv), ht, rfl⟩)
              rcases this with h1 | h1
              · exact absurd (htaily.subset (List.mem_cons_of_mem _ h1)) hnd.1
              · exact absurd (htaily.subset (h1 ▸ List.mem_cons_self _ _)) hnd.1
            | cons₂ _ htaily =>
              have hqv : qv = pv := by
                rcases List.mem_cons.mp hmemy with hh | ht
                · exact (congrArg Prod.snd hh).symm
                · exfalso
                  exact hnd.1 (htaily.subset
                    (List.mem_map.mpr ⟨(m0, pv), ht, rfl⟩))
              subst hqv
              have hperm2 : xs2.Perm ys2 := hperm.cons_inv
              rw [ih xs2 ys2 hnd.2 hperm2 htail htaily]
    · have hmy : m0 ∉ ys.map Prod.fst := by
        intro hc
        exact hm ((hperm.map Prod.fst).mem_iff.mpr hc)
      have hxs' : List.Sublist (xs.map Prod.fst) M' := by
        cases hK : xs.map Prod.fst with
        | nil => exact List.nil_sublist _
        | cons k0 rest =>
          rw [hK] at hxs
          cases hxs with
          | cons _ htail => exact htail
          | cons₂ _ htail =>
            exact absurd (by rw [hK]; exact List.mem_cons_self _ _) hm
      have hys' : List.Sublist (ys.map Prod.fst) M' := by
        cases hK : ys.map Prod.fst with
        | nil => exact List.nil_sublist _
        | cons k0 rest =>
          rw [hK] at hys
          cases hys with
          | cons _ htail => exact htail
          | cons₂ _ htail =>
            exact absurd (by rw [hK]; exact List.mem_cons_self _ _) hmy
      exact ih xs ys hnd.2 hperm hxs' hys'

theorem akeymem_encode_entries {l : List (String × GVal)} {k : String} :
    akeymem (encode_entries l) k = akeymem l k := by
  unfold akeymem
  rw [alookup_encode_entries]
  cases alookup l k <;> rfl

theorem walk_encode_vstr {t : String} :
    modify_dependencies_encode (.vstr t) false = .vstr t := rfl

theorem encode_entries_map_store {l : List (String × GVal)} {k t : String} :
    encode_entries (l.map (fun p => if p.1 = k then (k, GVal.vstr t) else p))
      = (encode_entries l).map (fun p => if p.1 = k then (k, GVal.vstr t) else p) := by
  induction l with
  | nil => rfl
  | cons p r ih =>
    obtain ⟨pk, pv⟩ := p
    by_cases hk : pk = k
    · subst hk
      rw [List.map_cons,
        show (if ((pk, pv) : String × GVal).1 = pk then (pk, GVal.vstr t) else (pk, pv))
            = (pk, GVal.vstr t) from if_pos rfl]
      simp only [encode_entries]
      rw [List.map_cons,
        show (if ((pk, modify_dependencies_encode pv false) : String × GVal).1 = pk
                then (pk, GVal.vstr t) else (pk, modify_dependencies_encode pv false))
            = (pk, GVal.vstr t) from if_pos rfl]
      rw [walk_encode_vstr, ih]
    · rw [List.map_cons,
        show (if ((pk, pv) : String × GVal).1 = k then (k, GVal.vstr t) else (pk, pv))
            = (pk, pv) from if_neg hk]
      simp only [encode_entries]
      rw [List.map_cons,
        show (if ((pk, modify_dependencies_encode pv false) : String × GVal).1 = k
                then (k, GVal.vstr t) else (pk, modify_dependencies_encode pv false))
            = (pk, modify_dependencies_encode pv false) from if_neg hk]
      rw [ih]

theorem encode_entries_astore_str {l : List (String × GVal)} {k : String}
    {t : String} :
    encode_entries (astore l k (.vstr t)) = astore (encode_entries l) k (.vstr t) := by
  unfold astore
  rw [akeymem_encode_entries]
  by_cases hm : akeymem l k = true
  · rw [if_pos hm, if_pos hm]
    exact encode_entries_map_store
  · rw [if_neg hm, if_neg hm]
    rw [encode_entries_append]
    rfl

theorem encode_entries_aupdate_tags {fs : List (String × GVal)} {v : GVal} :
    encode_entries (aupdate fs (module_qualname v))
      = aupdate (encode_entries fs) (module_qualname v) := by
  cases v with
  | vobj oid m q fs0 =>
    simp only [module_qualname, aupdate]
    rw [encode_entries_astore_str, encode_entries_astore_str]
  | vnone => rfl
  | vbool b => rfl
  | vint n => rfl
  | vstr t => rfl
  | vdict es => rfl
  | vlist xs => rfl
  | vkeystr p d => rfl

/-- dict_encode_dependencies on an instance coincides with the non-root
encode walk of the instance: updating the tags before or after walking
the field values is the same. -/
theorem dict_encode_eq_walk {oid : Nat} {m q : String}
    {fs : List (String × GVal)} :
    dict_encode_dependencies (.vobj oid m q fs)
      = modify_dependencies_encode (.vobj oid m q fs) false := by
  show GVal.vdict (encode_entries (aupdate fs (module_qualname (GVal.vobj oid m q fs))))
    = GVal.vdict (aupdate (encode_entries fs) (module_qualname (GVal.vobj oid m q fs)))
  rw [encode_entries_aupdate_tags]

theorem akeymem_append {α β : Type} [DecidableEq α] {l1 l2 : List (α × β)} {k : α} :
    akeymem (l1 ++ l2) k = (akeymem l1 k || akeymem l2 k) := by
  unfold akeymem
  rw [alookup_append]
  cases alookup l1 k <;> simp

theorem except_bind_ok {E A B : Type} {x : Except E A} {a : A} {f : A → Except E B}
    (h : x = .ok a) : (x >>= f) = f a := by
  rw [h]
  rfl

/-- The non-root encode walk on an instance, written out. -/
theorem enc_obj_eq {i : Nat} {m q : String} {fs : List (String × GVal)} :
    modify_dependencies_encode (.vobj i m q fs) false
      = .vdict (aupdate (encode_entries fs)
          [("__qualname__", .vstr q), ("__module__", .vstr m)]) := by
  simp [modify_dependencies_encode, is_gufe_obj, module_qualname]

/-- When the fields avoid the reserved tag names, updating in the tags
appends them. -/
theorem enc_obj_append {i : Nat} {m q : String} {fs : List (String × GVal)}
    (h1 : "__qualname__" ∉ fs.map Prod.fst) (h2 : "__module__" ∉ fs.map Prod.fst) :
    modify_dependencies_encode (.vobj i m q fs) false
      = .vdict (encode_entries fs
          ++ [("__qualname__", .vstr q), ("__module__", .vstr m)]) := by
  rw [enc_obj_eq]
  rw [aupdate_two_fresh
    (alookup_none_iff.mpr (by rw [encode_entries_keys]; exact h1))
    (alookup_none_iff.mpr (by rw [encode_entries_keys]; exact h2))
    (by decide)]

theorem tags_lookup_module {gs : List (String × GVal)} {m q : String}
    (h : "__module__" ∉ gs.map Prod.fst) :
    alookup (gs ++ [("__qualname__", .vstr q), ("__module__", .vstr m)]) "__module__"
      = some (.vstr m) := by
  rw [alookup_append, alookup_none_iff.mpr h]
  simp [alookup]

theorem tags_lookup_qualname {gs : List (String × GVal)} {m q : String}
    (h : "__qualname__" ∉ gs.map Prod.fst) :
    alookup (gs ++ [("__qualname__", .vstr q), ("__module__", .vstr m)]) "__qualname__"
      = some (.vstr q) := by
  rw [alookup_append, alookup_none_iff.mpr h]
  simp [alookup]

theorem objFreeBE_iff : ∀ {es : List (String × GVal)},
    objFreeBE es = true ↔ ∀ p ∈ es, objFreeB p.2 = true := by
  intro es
  induction es with
  | nil => simp [objFreeBE]
  | cons p r ih =>
    obtain ⟨pk, pv⟩ := p
    simp [objFreeBE, ih]

theorem objFreeBL_iff : ∀ {xs : List GVal},
    objFreeBL xs = true ↔ ∀ v ∈ xs, objFreeB v = true := by
  intro xs
  induction xs with
  | nil => simp [objFreeBL]
  | cons v r ih => simp [objFreeBL, ih]

mutual

theorem encW_objFree : ∀ v : GVal, objFreeB (modify_dependencies_encode v false) = true
  | .vobj i m q fs => by
    rw [enc_obj_eq]
    show objFreeBE _ = true
    apply objFreeBE_iff.mpr
    intro p hp
    rcases gm_aupdate_mem hp with h1 | h2
    · exact objFreeBE_iff.mp (encE_objFree fs) p h1
    · rcases List.mem_cons.mp h2 with h | h
      · rw [h]
        rfl
      · rw [List.mem_singleton.mp h]
        rfl
  | .vdict es => by
    simp only [modify_dependencies_encode, is_gufe_obj, Bool.false_and, if_neg,
      Bool.false_eq_true, not_false_iff]
    exact encE_objFree es
  | .vlist xs => by
    simp only [modify_dependencies_encode, is_gufe_obj, Bool.false_and, if_neg,
      Bool.false_eq_true, not_false_iff]
    exact encL_objFree xs
  | .vnone => rfl
  | .vbool b => rfl
  | .vint n => rfl
  | .vstr t => rfl
  | .vkeystr p d => rfl

theorem encE_objFree : ∀ es : List (String × GVal), objFreeBE (encode_entries es) = true
  | [] => rfl
  | (k, v) :: r => by
    simp only [encode_entries, objFreeBE, Bool.and_eq_true]
    exact ⟨encW_objFree v, encE_objFree r⟩

theorem encL_objFree : ∀ xs : List GVal, objFreeBL (encode_items xs) = true
  | [] => rfl
  | v :: r => by
    simp only [encode_items, objFreeBL, Bool.and_eq_true]
    exact ⟨encW_objFree v, encL_objFree r⟩

end

mutual

theorem walk_id_objFree : ∀ v : GVal, objFreeB v = true →
    modify_dependencies_encode v false = v
  | .vobj i m q fs, h => by simp [objFreeB] at h
  | .vdict es, h => by
    simp only [modify_dependencies_encode, is_gufe_obj, Bool.false_and, if_neg,
      Bool.false_eq_true, not_false_iff]
    rw [encode_entries_id_objFree es h]
  | .vlist xs, h => by
    simp only [modify_dependencies_encode, is_gufe_obj, Bool.false_and, if_neg,
      Bool.false_eq_true, not_false_iff]
    rw [encode_items_id_objFree xs h]
  | .vnone, _ => rfl
  | .vbool b, _ => rfl
  | .vint n, _ => rfl
  | .vstr t, _ => rfl
  | .vkeystr p d, _ => rfl

theorem encode_entries_id_objFree : ∀ es : List (String × GVal),
    objFreeBE es = true → encode_entries es = es
  | [], _ => rfl
  | (k, v) :: r, h => by
    simp only [objFreeBE, Bool.and_eq_true] at h
    simp only [encode_entries]
    rw [walk_id_objFree v h.1, encode_entries_id_objFree r h.2]

theorem encode_items_id_objFree : ∀ xs : List GVal,
    objFreeBL xs = true → encode_items xs = xs
  | [], _ => rfl
  | v :: r, h => by
    simp only [objFreeBL, Bool.and_eq_true] at h
    simp only [encode_items]
    rw [walk_id_objFree v h.1, encode_items_id_objFree r h.2]

end

/-- Encoding is idempotent on entry lists: the encode walk's output is
instance-free and walking instance-free data is the identity. -/
theorem encode_entries_idem {l : List (String × GVal)} :
    encode_entries (encode_entries l) = encode_entries l :=
  encode_entries_id_objFree _ (encE_objFree l)

theorem wfBE_iff {cd : String → String → List (String × GVal)}
    {cf : String → String → List String} : ∀ {es : List (String × GVal)},
    wfBE cd cf es = true ↔ ∀ p ∈ es, wfB cd cf p.2 = true := by
  intro es
  induction es with
  | nil => simp [wfBE]
  | cons p r ih =>
    obtain ⟨pk, pv⟩ := p
    simp [wfBE, ih]

theorem wfBL_iff {cd : String → String → List (String × GVal)}
    {cf : String → String → List String} : ∀ {xs : List GVal},
    wfBL cd cf xs = true ↔ ∀ v ∈ xs, wfB cd cf v = true := by
  intro xs
  induction xs with
  | nil => simp [wfBL]
  | cons v r ih => simp [wfBL, ih]

theorem nodupDeepBE_iff : ∀ {es : List (String × GVal)},
    nodupDeepBE es = true ↔ ∀ p ∈ es, nodupDeepB p.2 = true := by
  intro es
  induction es with
  | nil => simp [nodupDeepBE]
  | cons p r ih =>
    obtain ⟨pk, pv⟩ := p
    simp [nodupDeepBE, ih]

theorem nodupDeepBL_iff : ∀ {xs : List GVal},
    nodupDeepBL xs = true ↔ ∀ v ∈ xs, nodupDeepB v = true := by
  intro xs
  induction xs with
  | nil => simp [nodupDeepBL]
  | cons v r ih => simp [nodupDeepBL, ih]

theorem resolvesBE_iff {reg : List ((String × String) × (String × String))} :
    ∀ {es : List (String × GVal)},
    resolvesBE reg es = true ↔ ∀ p ∈ es, resolvesB reg p.2 = true := by
  intro es
  induction es with
  | nil => simp [resolvesBE]
  | cons p r ih =>
    obtain ⟨pk, pv⟩ := p
    simp [resolvesBE, ih]

theorem resolvesBL_iff {reg : List ((String × String) × (String × String))} :
    ∀ {xs : List GVal},
    resolvesBL reg xs = true ↔ ∀ v ∈ xs, resolvesB reg v = true := by
  intro xs
  induction xs with
  | nil => simp [resolvesBL]
  | cons v r ih => simp [resolvesBL, ih]

/-- The conjuncts of entity well-formedness, unpacked. -/
theorem wfB_obj_parts {cd : String → String → List (String × GVal)}
    {cf : String → String → List String} {i : Nat} {m q : String}
    {fs : List (String × GVal)} (h : wfB cd cf (.vobj i m q fs) = true) :
    fs.map Prod.fst = cf m q ∧ (cf m q).Nodup
      ∧ "__module__" ∉ cf m q ∧ "__qualname__" ∉ cf m q
      ∧ ((cd m q).map Prod.fst).Nodup
      ∧ (∀ p ∈ cd m q, isAtomB p.2 = true ∧ p.1 ∈ cf m q)
      ∧ wfBE cd cf fs = true := by
  simp only [wfB, Bool.and_eq_true, decide_eq_true_eq, Bool.not_eq_true',
    decide_eq_false_iff_not, List.all_eq_true] at h
  exact ⟨h.1, h.2.1, h.2.2.1, h.2.2.2.1, h.2.2.2.2.1,
    fun p hp => by
      have := h.2.2.2.2.2.1 p hp
      simp only [Bool.and_eq_true, decide_eq_true_eq] at this
      exact this,
    h.2.2.2.2.2.2⟩

theorem wfB_dict_parts {cd : String → String → List (String × GVal)}
    {cf : String → String → List String} {es : List (String × GVal)}
    (h : wfB cd cf (.vdict es) = true) :
    (es.map Prod.fst).Nodup
      ∧ (akeymem es "__qualname__" && akeymem es "__module__") = false
      ∧ wfBE cd cf es = true := by
  simp only [wfB, Bool.and_eq_true, decide_eq_true_eq, Bool.not_eq_true'] at h
  exact ⟨h.1, h.2.1, h.2.2⟩

theorem nodupDeepBE_append {a b : List (String × GVal)} :
    nodupDeepBE (a ++ b) = (nodupDeepBE a && nodupDeepBE b) := by
  induction a with
  | nil => simp [nodupDeepBE]
  | cons p r ih =>
    obtain ⟨pk, pv⟩ := p
    simp [nodupDeepBE, ih, Bool.and_assoc]

mutual

theorem encW_nodupDeep (cd : String → String → List (String × GVal))
    (cf : String → String → List String) :
    ∀ v : GVal, wfB cd cf v = true →
      nodupDeepB (modify_dependencies_encode v false) = true
  | .vobj i m q fs, h => by
    obtain ⟨hkeys, hnd, hm, hq, _, _, hfs⟩ := wfB_obj_parts h
    rw [enc_obj_append (by rw [hkeys]; exact hq) (by rw [hkeys]; exact hm)]
    show (decide ((((encode_entries fs)
        ++ [("__qualname__", GVal.vstr q), ("__module__", GVal.vstr m)]).map
          Prod.fst).Nodup) && nodupDeepBE _) = true
    rw [Bool.and_eq_true]
    constructor
    · rw [decide_eq_true_eq, List.map_append, encode_entries_keys, hkeys]
      rw [List.nodup_append]
      refine ⟨hnd, by simp, ?_⟩
      intro a ha
      simp only [List.map_cons, List.map_nil, List.mem_cons, List.not_mem_nil,
        or_false, List.mem_singleton]
      intro hc
      rcases hc with hc | hc
      · rw [hc] at ha; exact hq ha
      · rw [hc] at ha; exact hm ha
    · rw [nodupDeepBE_append, Bool.and_eq_true]
      exact ⟨encBE_nodupDeep cd cf fs hfs, rfl⟩
  | .vdict es, h => by
    obtain ⟨hnd, _, hes⟩ := wfB_dict_parts h
    simp only [modify_dependencies_encode, is_gufe_obj, Bool.false_and, if_neg,
      Bool.false_eq_true, not_false_iff]
    show (decide (((encode_entries es).map Prod.fst).Nodup) && nodupDeepBE _) = true
    rw [Bool.and_eq_true, encode_entries_keys]
    exact ⟨decide_eq_true hnd, encBE_nodupDeep cd cf es hes⟩
  | .vlist xs, h => by
    simp only [wfB] at h
    simp only [modify_dependencies_encode, is_gufe_obj, Bool.false_and, if_neg,
      Bool.false_eq_true, not_false_iff]
    exact encBL_nodupDeep cd cf xs h
  | .vnone, _ => rfl
  | .vbool b, _ => rfl
  | .vint n, _ => rfl
  | .vstr t, _ => rfl
  | .vkeystr p d, h => by simp [wfB] at h

theorem encBE_nodupDeep (cd : String → String → List (String × GVal))
    (cf : String → String → List String) :
    ∀ es : List (String × GVal), wfBE cd cf es = true →
      nodupDeepBE (encode_entries es) = true
  | [], _ => rfl
  | (k, v) :: r, h => by
    simp only [wfBE, Bool.and_eq_true] at h
    simp only [encode_entries, nodupDeepBE, Bool.and_eq_true]
    exact ⟨encW_nodupDeep cd cf v h.1, encBE_nodupDeep cd cf r h.2⟩

theorem encBL_nodupDeep (cd : String → String → List (String × GVal))
    (cf : String → String → List String) :
    ∀ xs : List GVal, wfBL cd cf xs = true →
      nodupDeepBL (encode_items xs) = true
  | [], _ => rfl
  | v :: r, h => by
    simp only [wfBL, Bool.and_eq_true] at h
    simp only [encode_items, nodupDeepBL, Bool.and_eq_true]
    exact ⟨encW_nodupDeep cd cf v h.1, encBL_nodupDeep cd cf r h.2⟩

end

theorem alookup_isSome_of_mem {α β : Type} [DecidableEq α] {l : List (α × β)}
    {k : α} {v : β} (h : (k, v) ∈ l) : (alookup l k).isSome = true := by
  induction l with
  | nil => cases h
  | cons p r ih =>
    obtain ⟨pk, pv⟩ := p
    by_cases hk : k = pk
    · subst hk
      simp [alookup]
    · rcases List.mem_cons.mp h with h1 | h2
      · exact absurd (congrArg Prod.fst h1) hk
      · simp [alookup, hk]
        exact ih h2

theorem pyEqEntries_refl_of {es : List (String × GVal)}
    (hnd : (es.map Prod.fst).Nodup)
    (hall : ∀ p ∈ es, pyEq p.2 p.2 = true) :
    ∀ a : List (String × GVal), (∀ p ∈ a, p ∈ es) → pyEqEntries a es = true := by
  intro a
  induction a with
  | nil => intro _; rw [pyEqEntries]
  | cons p r ih =>
    intro hsub
    obtain ⟨pk, pv⟩ := p
    rw [pyEqEntries]
    rw [Bool.and_eq_true]
    constructor
    · have hmem : (pk, pv) ∈ es := hsub _ (List.mem_cons_self _ _)
      have hlk : alookup es pk = some pv := alookup_eq_of_mem_nodup hmem hnd
      rw [hlk]
      exact hall _ hmem
    · exact ih (fun p hp => hsub p (List.mem_cons_of_mem _ hp))

theorem pyEqList_refl_of : ∀ {xs : List GVal},
    (∀ v ∈ xs, pyEq v v = true) → pyEqList xs xs = true := by
  intro xs
  induction xs with
  | nil => intro _; rw [pyEqList]
  | cons v r ih =>
    intro hall
    rw [pyEqList, Bool.and_eq_true]
    exact ⟨hall _ (List.mem_cons_self _ _),
      ih (fun w hw => hall w (List.mem_cons_of_mem _ hw))⟩

theorem pyEq_refl_n : ∀ n : Nat, ∀ v : GVal, gm v ≤ n → nodupDeepB v = true →
    pyEq v v = true := by
  intro n
  induction n with
  | zero =>
    intro v h hnd
    cases v with
    | vnone => rw [pyEq]
    | vbool b => simp [pyEq]
    | vint k => simp [pyEq]
    | vstr t => simp [pyEq]
    | vkeystr p d =>
      rw [pyEq, Bool.and_eq_true]
      exact ⟨by simp, (beqE_correct d d).mpr rfl⟩
    | vdict es => simp [gm] at h
    | vlist xs => simp [gm] at h
    | vobj i m q fs => simp [gm] at h
  | succ n ih =>
    intro v h hnd
    cases v with
    | vnone => rw [pyEq]
    | vbool b => simp [pyEq]
    | vint k => simp [pyEq]
    | vstr t => simp [pyEq]
    | vkeystr p d =>
      rw [pyEq, Bool.and_eq_true]
      exact ⟨by simp, (beqE_correct d d).mpr rfl⟩
    | vdict es =>
      have hgm : gmE es ≤ n := by simp [gm] at h; omega
      simp only [nodupDeepB, Bool.and_eq_true, decide_eq_true_eq] at hnd
      rw [pyEq, Bool.and_eq_true]
      constructor
      · exact pyEqEntries_refl_of hnd.1
          (fun p hp => ih p.2 (le_trans (le_of_lt (gm_mem_entries
            (show (p.1, p.2) ∈ es by rw [Prod.mk.eta]; exact hp))) hgm)
            (nodupDeepBE_iff.mp hnd.2 p hp))
          es (fun p hp => hp)
      · rw [List.all_eq_true]
        intro p hp
        exact alookup_isSome_of_mem (show (p.1, p.2) ∈ es by
          rw [Prod.mk.eta]; exact hp)
    | vlist xs =>
      have hgm : gmL xs ≤ n := by simp [gm] at h; omega
      simp only [nodupDeepB] at hnd
      rw [pyEq]
      exact pyEqList_refl_of (fun w hw => ih w
        (le_trans (le_of_lt (gm_mem_list hw)) hgm)
        (nodupDeepBL_iff.mp hnd w hw))
    | vobj i m q fs =>
      have hgm : gmE fs ≤ n := by simp [gm] at h; omega
      simp only [nodupDeepB, Bool.and_eq_true, decide_eq_true_eq] at hnd
      rw [pyEq]
      simp only [Bool.and_eq_true, beq_self_eq_true, true_and]
      constructor
      · exact pyEqEntries_refl_of hnd.1
          (fun p hp => ih p.2 (le_trans (le_of_lt (gm_mem_entries
            (show (p.1, p.2) ∈ fs by rw [Prod.mk.eta]; exact hp))) hgm)
            (nodupDeepBE_iff.mp hnd.2 p hp))
          fs (fun p hp => hp)
      · rw [List.all_eq_true]
        intro p hp
        exact alookup_isSome_of_mem (show (p.1, p.2) ∈ fs by
          rw [Prod.mk.eta]; exact hp)

/-- Python == is reflexive on values whose dict nodes have pairwise
distinct keys. -/
theorem pyEq_refl {v : GVal} (hnd : nodupDeepB v = true) : pyEq v v = true :=
  pyEq_refl_n (gm v) v (le_refl _) hnd

/-- GufeTokenizable.to_dict with include_defaults=False on an instance,
written out: the tagged deep encoding with default-valued keys stripped. -/
theorem to_dict_false_obj {cd : String → String → List (String × GVal)}
    {i : Nat} {m q : String} {fs : List (String × GVal)} :
    GufeTokenizable_to_dict cd (.vobj i m q fs) false
      = .vdict (strip_defaults (cd m q)
          (aupdate (encode_entries fs)
            [("__qualname__", .vstr q), ("__module__", .vstr m)])) := by
  have hD : dict_encode_dependencies (.vobj i m q fs)
      = .vdict (aupdate (encode_entries fs)
          [("__qualname__", .vstr q), ("__module__", .vstr m)]) := by
    rw [dict_encode_eq_walk, enc_obj_eq]
  simp only [GufeTokenizable_to_dict, hD]
  rfl

/-- The gufe key of an instance, written out. -/
theorem gufe_key_obj {cd : String → String → List (String × GVal)}
    {i : Nat} {m q : String} {fs : List (String × GVal)} :
    gufe_key cd (.vobj i m q fs)
      = (q, sortPairs (strip_defaults (cd m q)
          (aupdate (encode_entries fs)
            [("__qualname__", .vstr q), ("__module__", .vstr m)]))) := by
  show (q, tokenize cd (.vobj i m q fs)) = _
  rw [Prod.mk.injEq]
  refine ⟨rfl, ?_⟩
  show _gufe_tokenize cd (.vobj i m q fs) = _
  simp only [_gufe_tokenize, to_dict_false_obj]

/-- Two instances of the same class with equal non-root encodings have
equal gufe keys. -/
theorem gufe_key_of_enc_eq {cd : String → String → List (String × GVal)}
    {i1 i2 : Nat} {m q : String} {fs1 fs2 : List (String × GVal)}
    (h : modify_dependencies_encode (.vobj i1 m q fs1) false
        = modify_dependencies_encode (.vobj i2 m q fs2) false) :
    gufe_key cd (.vobj i1 m q fs1) = gufe_key cd (.vobj i2 m q fs2) := by
  rw [enc_obj_eq, enc_obj_eq] at h
  injection h with h'
  rw [gufe_key_obj, gufe_key_obj, h']

theorem strip_match_some {es : List (String × GVal)} {k : String} {dv w : GVal} :
    (match (some dv : Option GVal), (some w : Option GVal) with
      | some dv, some w => if pyEq w dv then none else some w
      | _, _ => alookup es k) = if pyEq w dv then none else some w := rfl

theorem strip_match_none {es : List (String × GVal)} {k : String} {x : Option GVal} :
    (match (none : Option GVal), x with
      | some dv, some w => if pyEq w dv then none else some w
      | _, _ => alookup es k) = alookup es k := by
  cases x <;> rfl

/-- Among well-formed entities the gufe key determines the encoding: the
identifier is the class qualname plus the sorted default-stripped full
dict, and under the entity contract (canonical field order, atomic
defaults, tag-free fields) that data pins the full dict itself down. -/
theorem key_determines_encoding {cd : String → String → List (String × GVal)}
    {cf : String → String → List String} {e1 e2 : GVal}
    (ho1 : is_gufe_obj e1 = true) (ho2 : is_gufe_obj e2 = true)
    (hw1 : wfB cd cf e1 = true) (hw2 : wfB cd cf e2 = true)
    (hkey : gufe_key cd e1 = gufe_key cd e2) :
    modify_dependencies_encode e1 false = modify_dependencies_encode e2 false := by
  cases e1 <;> simp only [is_gufe_obj, Bool.false_eq_true] at ho1
  rename_i i1 m1 q1 fs1
  cases e2 <;> simp only [is_gufe_obj, Bool.false_eq_true] at ho2
  rename_i i2 m2 q2 fs2
  obtain ⟨hk1, hnd1, hm1, hq1, hcd1, hat1, hfs1⟩ := wfB_obj_parts hw1
  obtain ⟨hk2, hnd2, hm2, hq2, hcd2, hat2, hfs2⟩ := wfB_obj_parts hw2
  rw [gufe_key_obj, gufe_key_obj, Prod.mk.injEq] at hkey
  obtain ⟨hq, hsorted⟩ := hkey
  subst hq
  have hap1 : aupdate (encode_entries fs1)
      [("__qualname__", GVal.vstr q1), ("__module__", GVal.vstr m1)]
      = encode_entries fs1
        ++ [("__qualname__", GVal.vstr q1), ("__module__", GVal.vstr m1)] :=
    aupdate_two_fresh
      (alookup_none_iff.mpr (by rw [encode_entries_keys, hk1]; exact hq1))
      (alookup_none_iff.mpr (by rw [encode_entries_keys, hk1]; exact hm1))
      (by decide)
  have hap2 : aupdate (encode_entries fs2)
      [("__qualname__", GVal.vstr q1), ("__module__", GVal.vstr m2)]
      = encode_entries fs2
        ++ [("__qualname__", GVal.vstr q1), ("__module__", GVal.vstr m2)] :=
    aupdate_two_fresh
      (alookup_none_iff.mpr (by rw [encode_entries_keys, hk2]; exact hq2))
      (alookup_none_iff.mpr (by rw [encode_entries_keys, hk2]; exact hm2))
      (by decide)
  rw [hap1, hap2] at hsorted
  have hkeys1 : (encode_entries fs1
      ++ [("__qualname__", GVal.vstr q1), ("__module__", GVal.vstr m1)]).map Prod.fst
      = cf m1 q1 ++ ["__qualname__", "__module__"] := by
    rw [List.map_append, encode_entries_keys, hk1]
    rfl
  have hkeys2 : (encode_entries fs2
      ++ [("__qualname__", GVal.vstr q1), ("__module__", GVal.vstr m2)]).map Prod.fst
      = cf m2 q1 ++ ["__qualname__", "__module__"] := by
    rw [List.map_append, encode_entries_keys, hk2]
    rfl
  have hndes1 : ((encode_entries fs1
      ++ [("__qualname__", GVal.vstr q1), ("__module__", GVal.vstr m1)]).map
        Prod.fst).Nodup := by
    rw [hkeys1, List.nodup_append]
    refine ⟨hnd1, by simp, ?_⟩
    intro a ha
    simp only [List.mem_cons, List.not_mem_nil, or_false]
    intro hc
    rcases hc with hc | hc
    · rw [hc] at ha; exact hq1 ha
    · rw [hc] at ha; exact hm1 ha
  have hndes2 : ((encode_entries fs2
      ++ [("__qualname__", GVal.vstr q1), ("__module__", GVal.vstr m2)]).map
        Prod.fst).Nodup := by
    rw [hkeys2, List.nodup_append]
    refine ⟨hnd2, by simp, ?_⟩
    intro a ha
    simp only [List.mem_cons, List.not_mem_nil, or_false]
    intro hc
    rcases hc with hc | hc
    · rw [hc] at ha; exact hq2 ha
    · rw [hc] at ha; exact hm2 ha
  have hcdm1 : alookup (cd m1 q1) "__module__" = none := by
    rw [alookup_none_iff]
    intro hc
    rcases List.mem_map.mp hc with ⟨p, hp, hfst⟩
    exact hm1 (hfst ▸ (hat1 p hp).2)
  have hcdm2 : alookup (cd m2 q1) "__module__" = none := by
    rw [alookup_none_iff]
    intro hc
    rcases List.mem_map.mp hc with ⟨p, hp, hfst⟩
    exact hm2 (hfst ▸ (hat2 p hp).2)
  have hS1m : alookup (strip_defaults (cd m1 q1) (encode_entries fs1
      ++ [("__qualname__", GVal.vstr q1), ("__module__", GVal.vstr m1)]))
        "__module__" = some (.vstr m1) := by
    rw [strip_char _ _ hndes1 hcd1, hcdm1,
      tags_lookup_module (by rw [encode_entries_keys, hk1]; exact hm1)]
  have hS2m : alookup (strip_defaults (cd m2 q1) (encode_entries fs2
      ++ [("__qualname__", GVal.vstr q1), ("__module__", GVal.vstr m2)]))
        "__module__" = some (.vstr m2) := by
    rw [strip_char _ _ hndes2 hcd2, hcdm2,
      tags_lookup_module (by rw [encode_entries_keys, hk2]; exact hm2)]
  have hmem1 : ("__module__", GVal.vstr m1) ∈ sortPairs (strip_defaults (cd m1 q1)
      (encode_entries fs1
        ++ [("__qualname__", GVal.vstr q1), ("__module__", GVal.vstr m1)])) :=
    (List.Perm.mem_iff sortPairs_perm).mpr (alookup_mem hS1m)
  have hmem2 : ("__module__", GVal.vstr m2) ∈ sortPairs (strip_defaults (cd m1 q1)
      (encode_entries fs1
        ++ [("__qualname__", GVal.vstr q1), ("__module__", GVal.vstr m1)])) := by
    rw [hsorted]
    exact (List.Perm.mem_iff sortPairs_perm).mpr (alookup_mem hS2m)
  have hndS1 : ((sortPairs (strip_defaults (cd m1 q1) (encode_entries fs1
      ++ [("__qualname__", GVal.vstr q1), ("__module__", GVal.vstr m1)]))).map
        Prod.fst).Nodup := by
    have hsub : ((strip_defaults (cd m1 q1) (encode_entries fs1
        ++ [("__qualname__", GVal.vstr q1), ("__module__", GVal.vstr m1)])).map
          Prod.fst).Nodup :=
      (List.Sublist.map Prod.fst strip_sublist).nodup hndes1
    exact (List.Perm.nodup_iff (List.Perm.map Prod.fst sortPairs_perm)).mpr hsub
  have hmm : GVal.vstr m1 = GVal.vstr m2 := mem_unique_of_nodup_keys hndS1 hmem1 hmem2
  injection hmm with hm
  subst hm
  have hperm : (strip_defaults (cd m1 q1) (encode_entries fs1
      ++ [("__qualname__", GVal.vstr q1), ("__module__", GVal.vstr m1)])).Perm
      (strip_defaults (cd m1 q1) (encode_entries fs2
        ++ [("__qualname__", GVal.vstr q1), ("__module__", GVal.vstr m1)])) := by
    refine List.Perm.trans (List.Perm.symm sortPairs_perm) ?_
    rw [hsorted]
    exact sortPairs_perm
  have hMnd : (cf m1 q1 ++ ["__qualname__", "__module__"]).Nodup := by
    rw [← hkeys1]
    exact hndes1
  have hsub1 : List.Sublist ((strip_defaults (cd m1 q1) (encode_entries fs1
      ++ [("__qualname__", GVal.vstr q1), ("__module__", GVal.vstr m1)])).map
        Prod.fst) (cf m1 q1 ++ ["__qualname__", "__module__"]) := by
    rw [← hkeys1]
    exact List.Sublist.map Prod.fst strip_sublist
  have hsub2 : List.Sublist ((strip_defaults (cd m1 q1) (encode_entries fs2
      ++ [("__qualname__", GVal.vstr q1), ("__module__", GVal.vstr m1)])).map
        Prod.fst) (cf m1 q1 ++ ["__qualname__", "__module__"]) := by
    rw [← hkeys2]
    exact List.Sublist.map Prod.fst strip_sublist
  have hSS : strip_defaults (cd m1 q1) (encode_entries fs1
      ++ [("__qualname__", GVal.vstr q1), ("__module__", GVal.vstr m1)])
      = strip_defaults (cd m1 q1) (encode_entries fs2
        ++ [("__qualname__", GVal.vstr q1), ("__module__", GVal.vstr m1)]) :=
    perm_eq_of_keys_sublist _ _ _ hMnd hperm hsub1 hsub2
  have heseq : encode_entries fs1
      ++ [("__qualname__", GVal.vstr q1), ("__module__", GVal.vstr m1)]
      = encode_entries fs2
        ++ [("__qualname__", GVal.vstr q1), ("__module__", GVal.vstr m1)] := by
    apply lookup_ext_eq (by rw [hkeys1, hkeys2]) hndes1
    intro k
    cases hcdk : alookup (cd m1 q1) k with
    | none =>
      have l1 : alookup (strip_defaults (cd m1 q1) (encode_entries fs1
          ++ [("__qualname__", GVal.vstr q1), ("__module__", GVal.vstr m1)])) k
          = alookup (encode_entries fs1
            ++ [("__qualname__", GVal.vstr q1), ("__module__", GVal.vstr m1)]) k := by
        rw [strip_char (k := k) _ _ hndes1 hcd1, hcdk]
      have l2 : alookup (strip_defaults (cd m1 q1) (encode_entries fs2
          ++ [("__qualname__", GVal.vstr q1), ("__module__", GVal.vstr m1)])) k
          = alookup (encode_entries fs2
            ++ [("__qualname__", GVal.vstr q1), ("__module__", GVal.vstr m1)]) k := by
        rw [strip_char (k := k) _ _ hndes2 hcd2, hcdk]
      rw [← l1, ← l2, hSS]
    | some dv =>
      have hdvmem := alookup_mem hcdk
      have hatom : isAtomB dv = true := (hat1 _ hdvmem).1
      have hkcf : k ∈ cf m1 q1 := (hat1 _ hdvmem).2
      have hks1 : k ∈ (encode_entries fs1
          ++ [("__qualname__", GVal.vstr q1), ("__module__", GVal.vstr m1)]).map
            Prod.fst := by
        rw [hkeys1]
        exact List.mem_append_left _ hkcf
      have hks2 : k ∈ (encode_entries fs2
          ++ [("__qualname__", GVal.vstr q1), ("__module__", GVal.vstr m1)]).map
            Prod.fst := by
        rw [hkeys2]
        exact List.mem_append_left _ hkcf
      obtain ⟨w1, hw1⟩ : ∃ w, alookup (encode_entries fs1
          ++ [("__qualname__", GVal.vstr q1), ("__module__", GVal.vstr m1)]) k
            = some w := by
        cases hx : alookup (encode_entries fs1
            ++ [("__qualname__", GVal.vstr q1), ("__module__", GVal.vstr m1)]) k with
        | none => exact absurd hks1 (alookup_none_iff.mp hx)
        | some w => exact ⟨w, rfl⟩
      obtain ⟨w2, hw2⟩ : ∃ w, alookup (encode_entries fs2
          ++ [("__qualname__", GVal.vstr q1), ("__module__", GVal.vstr m1)]) k
            = some w := by
        cases hx : alookup (encode_entries fs2
            ++ [("__qualname__", GVal.vstr q1), ("__module__", GVal.vstr m1)]) k with
        | none => exact absurd hks2 (alookup_none_iff.mp hx)
        | some w => exact ⟨w, rfl⟩
      have l1 : alookup (strip_defaults (cd m1 q1) (encode_entries fs1
          ++ [("__qualname__", GVal.vstr q1), ("__module__", GVal.vstr m1)])) k
          = if pyEq w1 dv = true then none else some w1 := by
        rw [strip_char (k := k) _ _ hndes1 hcd1, hcdk, hw1]
      have l2 : alookup (strip_defaults (cd m1 q1) (encode_entries fs2
          ++ [("__qualname__", GVal.vstr q1), ("__module__", GVal.vstr m1)])) k
          = if pyEq w2 dv = true then none else some w2 := by
        rw [strip_char (k := k) _ _ hndes2 hcd2, hcdk, hw2]
      have hls : (if pyEq w1 dv = true then none else some w1)
          = (if pyEq w2 dv = true then none else some w2) := by
        rw [← l1, ← l2, hSS]
      rw [hw1, hw2]
      by_cases hp1 : pyEq w1 dv = true
      · by_cases hp2 : pyEq w2 dv = true
        · rw [pyEq_atom_right hatom hp1, pyEq_atom_right hatom hp2]
        · rw [if_pos hp1, if_neg hp2] at hls
          cases hls
      · by_cases hp2 : pyEq w2 dv = true
        · rw [if_neg hp1, if_pos hp2] at hls
          cases hls
        · rw [if_neg hp1, if_neg hp2] at hls
          injection hls with hls'
          rw [hls']
  rw [enc_obj_append (by rw [hk1]; exact hq1) (by rw [hk1]; exact hm1),
    enc_obj_append (by rw [hk2]; exact hq2) (by rw [hk2]; exact hm2), heseq]

/-- _from_dict on a tag-terminated dict whose body avoids the tag names:
the two pops strip exactly the tags and the instance is rebuilt from the
rest, with a registry-resolved class and a fresh object identity. -/
theorem _from_dict_tagged {remap env : List ((String × String) × (String × String))}
    {s : SysState} {gs : List (String × GVal)} {m q : String}
    (hgm : "__module__" ∉ gs.map Prod.fst) (hgq : "__qualname__" ∉ gs.map Prod.fst)
    (hcls : alookup s.classReg (m, q) = some (m, q)) :
    _from_dict remap env s
        (.vdict (gs ++ [("__qualname__", .vstr q), ("__module__", .vstr m)]))
      = .ok (.vobj s.nextId m q gs, { s with nextId := s.nextId + 1 }) := by
  have h1 : apop (gs ++ [("__qualname__", GVal.vstr q), ("__module__", GVal.vstr m)])
      "__module__" = .ok (.vstr m, gs ++ [("__qualname__", GVal.vstr q)]) := by
    rw [apop_eq_of_lookup (tags_lookup_module hgm),
      aerase_append_left_none (alookup_none_iff.mpr hgm)]
    have h : aerase [("__qualname__", GVal.vstr q), ("__module__", GVal.vstr m)]
        "__module__" = [("__qualname__", GVal.vstr q)] := by
      simp [aerase]
    rw [h]
  have h2 : apop (gs ++ [("__qualname__", GVal.vstr q)]) "__qualname__"
      = .ok (.vstr q, gs) := by
    have hlk : alookup (gs ++ [("__qualname__", GVal.vstr q)]) "__qualname__"
        = some (.vstr q) := by
      rw [alookup_append, alookup_none_iff.mpr hgq]
      simp [alookup]
    rw [apop_eq_of_lookup hlk, aerase_append_left_none (alookup_none_iff.mpr hgq)]
    simp [aerase]
  simp only [_from_dict, h1, h2, bind, Except.bind]
  rw [if_neg (by simp)]
  simp only [get_class, hcls]

theorem not_mem_of_akeymem_false {β : Type} {l : List (String × β)} {k : String}
    (h : akeymem l k = false) : k ∉ l.map Prod.fst := by
  rw [← alookup_none_iff]
  unfold akeymem at h
  cases hx : alookup l k with
  | none => rfl
  | some v =>
    rw [hx] at h
    simp at h

/-- Module-level from_dict on the (deep-encoded, possibly partially
decoded) dictionary of a well-formed entity: it succeeds, yields an
instance of the same class whose encoding and key match the original
entity's, leaves the class registry unchanged, and preserves the
instance-registry invariant.  gs ranges over any entry list whose
encoding matches the fields' encoding, which covers both the raw encoded
fields (nested entity of the walk) and their decoded form (the root). -/
theorem from_dict_built {cd : String → String → List (String × GVal)}
    {cf : String → String → List String}
    {remap env : List ((String × String) × (String × String))}
    {s : SysState} {i : Nat} {m q : String}
    {fs gs : List (String × GVal)}
    (hwf : wfB cd cf (.vobj i m q fs) = true)
    (hcls : alookup s.classReg (m, q) = some (m, q))
    (hS : StateInv cd cf s)
    (hgs : encode_entries gs = encode_entries fs) :
    ∃ w s2,
      from_dict cd remap env s
          (.vdict (gs ++ [("__qualname__", .vstr q), ("__module__", .vstr m)]))
        = .ok (w, s2)
      ∧ (∃ iw fsw, w = .vobj iw m q fsw)
      ∧ modify_dependencies_encode w false
          = modify_dependencies_encode (.vobj i m q fs) false
      ∧ gufe_key cd w = gufe_key cd (.vobj i m q fs)
      ∧ s2.classReg = s.classReg
      ∧ StateInv cd cf s2 := by
  obtain ⟨hk1, hnd1, hm1, hq1, _, _, _⟩ := wfB_obj_parts hwf
  have hgk : gs.map Prod.fst = fs.map Prod.fst := by
    rw [← encode_entries_keys (l := gs), ← encode_entries_keys (l := fs), hgs]
  have hgm : "__module__" ∉ gs.map Prod.fst := by
    rw [hgk, hk1]
    exact hm1
  have hgq : "__qualname__" ∉ gs.map Prod.fst := by
    rw [hgk, hk1]
    exact hq1
  have hfd : _from_dict remap env s
      (.vdict (gs ++ [("__qualname__", .vstr q), ("__module__", .vstr m)]))
      = .ok (.vobj s.nextId m q gs, { s with nextId := s.nextId + 1 }) :=
    _from_dict_tagged hgm hgq hcls
  have hEnc : modify_dependencies_encode (.vobj s.nextId m q gs) false
      = modify_dependencies_encode (.vobj i m q fs) false := by
    rw [enc_obj_eq, enc_obj_eq, hgs]
  have hkey : gufe_key cd (.vobj s.nextId m q gs) = gufe_key cd (.vobj i m q fs) :=
    gufe_key_of_enc_eq hEnc
  have hntf : NoTagFieldsB (.vobj s.nextId m q gs) = true := by
    simp [NoTagFieldsB, akeymem, alookup_none_iff.mpr hgm, alookup_none_iff.mpr hgq]
  have hfrom : from_dict cd remap env s
      (.vdict (gs ++ [("__qualname__", .vstr q), ("__module__", .vstr m)]))
      = (match alookup (asetdefault s.instReg
            (gufe_key cd (.vobj s.nextId m q gs))
            (some (.vobj s.nextId m q gs)))
          (gufe_key cd (.vobj s.nextId m q gs)) with
        | some (some thing) => .ok (thing,
            { classReg := s.classReg,
              instReg := asetdefault s.instReg
                (gufe_key cd (.vobj s.nextId m q gs))
                (some (.vobj s.nextId m q gs)),
              nextId := s.nextId + 1 })
        | some none => .ok (.vobj s.nextId m q gs,
            { classReg := s.classReg,
              instReg := asetdefault s.instReg
                (gufe_key cd (.vobj s.nextId m q gs))
                (some (.vobj s.nextId m q gs)),
              nextId := s.nextId + 1 })
        | none => .ok (.vobj s.nextId m q gs,
            { classReg := s.classReg,
              instReg := asetdefault s.instReg
                (gufe_key cd (.vobj s.nextId m q gs))
                (some (.vobj s.nextId m q gs)),
              nextId := s.nextId + 1 })) := by
    simp only [from_dict, hfd, bind, Except.bind, key_register]
  cases hlk : alookup s.instReg (gufe_key cd (.vobj s.nextId m q gs)) with
  | none =>
    have hset : asetdefault s.instReg (gufe_key cd (.vobj s.nextId m q gs))
        (some (.vobj s.nextId m q gs))
        = s.instReg ++ [(gufe_key cd (.vobj s.nextId m q gs),
            some (.vobj s.nextId m q gs))] := by
      unfold asetdefault
      rw [if_neg (by simp [akeymem, hlk])]
    have hlk2 : alookup (s.instReg ++ [(gufe_key cd (.vobj s.nextId m q gs),
        some (.vobj s.nextId m q gs))]) (gufe_key cd (.vobj s.nextId m q gs))
        = some (some (.vobj s.nextId m q gs)) := by
      rw [alookup_append, hlk]
      simp [alookup]
    refine ⟨.vobj s.nextId m q gs,
      { classReg := s.classReg,
        instReg := s.instReg ++ [(gufe_key cd (.vobj s.nextId m q gs),
          some (.vobj s.nextId m q gs))],
        nextId := s.nextId + 1 }, ?_, ⟨s.nextId, gs, rfl⟩, hEnc, hkey, rfl, ?_⟩
    · rw [hfrom, hset, hlk2]
    · intro p hp o hpo
      rcases List.mem_append.mp hp with hmem | hmem
      · exact hS p hmem o hpo
      · have hpe : p = (gufe_key cd (.vobj s.nextId m q gs),
            some (.vobj s.nextId m q gs)) := List.mem_singleton.mp hmem
        have ho : o = .vobj s.nextId m q gs := by
          rw [hpe] at hpo
          injection hpo with h'
          exact h'.symm
        subst ho
        refine ⟨rfl, hntf, by rw [hpe], ?_⟩
        intro e' ho' hw' hk'
        exact (key_determines_encoding ho'
          (show is_gufe_obj (GVal.vobj i m q fs) = true from rfl)
          hw' hwf (hk'.trans hkey)).trans hEnc.symm
  | some oo =>
    have hset : asetdefault s.instReg (gufe_key cd (.vobj s.nextId m q gs))
        (some (.vobj s.nextId m q gs)) = s.instReg := by
      unfold asetdefault
      rw [if_pos (by simp [akeymem, hlk])]
    cases oo with
    | none =>
      refine ⟨.vobj s.nextId m q gs,
        { classReg := s.classReg, instReg := s.instReg, nextId := s.nextId + 1 },
        ?_, ⟨s.nextId, gs, rfl⟩, hEnc, hkey, rfl, ?_⟩
      · rw [hfrom, hset, hlk]
      · intro p hp o hpo
        exact hS p hp o hpo
    | some o =>
      have hmem := alookup_mem hlk
      obtain ⟨hobj, hntfo, hko, hEncInvo⟩ := hS _ hmem o rfl
      cases o <;> simp only [is_gufe_obj, Bool.false_eq_true] at hobj
      rename_i io mo qo fso
      have hqo : qo = q := by
        have h1 : gufe_key cd (.vobj io mo qo fso) = gufe_key cd (.vobj i m q fs) :=
          hko.trans hkey
        rw [gufe_key_obj, gufe_key_obj, Prod.mk.injEq] at h1
        exact h1.1
      have henc_eo : modify_dependencies_encode (.vobj i m q fs) false
          = modify_dependencies_encode (.vobj io mo qo fso) false :=
        hEncInvo _ rfl hwf (hko.trans hkey).symm
      have hfm : "__module__" ∉ fso.map Prod.fst := by
        simp only [NoTagFieldsB, Bool.and_eq_true, Bool.not_eq_true'] at hntfo
        exact not_mem_of_akeymem_false hntfo.1
      have hfq : "__qualname__" ∉ fso.map Prod.fst := by
        simp only [NoTagFieldsB, Bool.and_eq_true, Bool.not_eq_true'] at hntfo
        exact not_mem_of_akeymem_false hntfo.2
      have hmo : mo = m := by
        have h1 := henc_eo
        rw [enc_obj_append (by rw [hk1]; exact hq1) (by rw [hk1]; exact hm1),
          enc_obj_append hfq hfm] at h1
        injection h1 with h2
        have h3 := congrArg (fun l => alookup l "__module__") h2
        simp only at h3
        rw [tags_lookup_module (by rw [encode_entries_keys, hk1]; exact hm1),
          tags_lookup_module (by rw [encode_entries_keys]; exact hfm)] at h3
        injection h3 with h4
        injection h4 with h5
        exact h5.symm
      refine ⟨.vobj io mo qo fso,
        { classReg := s.classReg, instReg := s.instReg, nextId := s.nextId + 1 },
        ?_, ⟨io, fso, by rw [hmo, hqo]⟩, henc_eo.symm,
        hko.trans hkey, rfl, ?_⟩
      · rw [hfrom, hset, hlk]
      · intro p hp o hpo
        exact hS p hp o hpo

/-- The is_gufe_dict guard is true on a tag-terminated entry list. -/
theorem is_gufe_dict_tagged {gs : List (String × GVal)} {m q : String} :
    is_gufe_dict (.vdict (gs
      ++ [("__qualname__", .vstr q), ("__module__", .vstr m)])) = true := by
  show (akeymem _ "__qualname__" && akeymem _ "__module__") = true
  rw [Bool.and_eq_true]
  constructor
  · unfold akeymem
    rw [alookup_append]
    cases alookup gs "__qualname__" <;> simp [alookup]
  · unfold akeymem
    rw [alookup_append]
    cases alookup gs "__module__" <;> simp [alookup]

mutual

/-- Non-root deep-decode simulation: on the encoding of a well-formed
value whose class tags resolve in the class registry, the decode walk
succeeds, its result re-encodes to the same wire form, the class registry
is unchanged, and the instance-registry invariant is preserved. -/
theorem decode_sim_val (cd : String → String → List (String × GVal))
    (cf : String → String → List String)
    (remap env : List ((String × String) × (String × String))) :
    ∀ (s : SysState) (v : GVal),
      wfB cd cf v = true → resolvesB s.classReg v = true → StateInv cd cf s →
      ∃ w s', modify_dependencies_decode cd remap env s
          (modify_dependencies_encode v false) false = .ok (w, s')
        ∧ modify_dependencies_encode w false = modify_dependencies_encode v false
        ∧ s'.classReg = s.classReg
        ∧ StateInv cd cf s'
  | s, .vobj i m q fs => fun hwf hres hS => by
    obtain ⟨hk1, _, hm1, hq1, _, _, _⟩ := wfB_obj_parts hwf
    have harg : modify_dependencies_encode (.vobj i m q fs) false
        = .vdict (encode_entries fs
            ++ [("__qualname__", .vstr q), ("__module__", .vstr m)]) :=
      enc_obj_append (by rw [hk1]; exact hq1) (by rw [hk1]; exact hm1)
    have hcls : alookup s.classReg (m, q) = some (m, q) := by
      simp only [resolvesB, Bool.and_eq_true, decide_eq_true_eq] at hres
      exact hres.1
    have hmdd : modify_dependencies_decode cd remap env s
        (modify_dependencies_encode (.vobj i m q fs) false) false
        = from_dict cd remap env s (.vdict (encode_entries fs
            ++ [("__qualname__", .vstr q), ("__module__", .vstr m)])) := by
      rw [harg]
      simp only [modify_dependencies_decode]
      rw [if_pos (by rw [is_gufe_dict_tagged]; rfl)]
    obtain ⟨w, s2, hok, _, hEncw, _, hcreg, hSI⟩ :=
      from_dict_built hwf hcls hS (encode_entries_idem (l := fs))
    exact ⟨w, s2, hmdd.trans hok, hEncw, hcreg, hSI⟩
  | s, .vdict es => fun hwf hres hS => by
    obtain ⟨hnd, htags, hes⟩ := wfB_dict_parts hwf
    have hres' : resolvesBE s.classReg es = true := by
      simpa [resolvesB] using hres
    have hguardF : (is_gufe_dict (.vdict (encode_entries es)) && !false) = false := by
      simp only [is_gufe_dict, akeymem_encode_entries, Bool.not_false, Bool.and_true]
      exact htags
    have hmdd : modify_dependencies_decode cd remap env s
        (.vdict (encode_entries es)) false
        = (decode_entries cd remap env s (encode_entries es) >>= fun p =>
            .ok (.vdict p.1, p.2)) := by
      simp only [modify_dependencies_decode]
      rw [if_neg (by rw [hguardF]; simp)]
    obtain ⟨ws, s', hde, hEe, hcreg, hSI⟩ :=
      decode_sim_entries cd cf remap env s es hes hres' hS
    refine ⟨.vdict ws, s', ?_, ?_, hcreg, hSI⟩
    · rw [show modify_dependencies_encode (.vdict es) false
          = .vdict (encode_entries es) from by
        simp only [modify_dependencies_encode, is_gufe_obj, Bool.false_and,
          if_neg, Bool.false_eq_true, not_false_iff]]
      rw [hmdd, except_bind_ok hde]
    · simp only [modify_dependencies_encode, is_gufe_obj, Bool.false_and,
        if_neg, Bool.false_eq_true, not_false_iff]
      rw [hEe]
  | s, .vlist xs => fun hwf hres hS => by
    have hxs : wfBL cd cf xs = true := by simpa [wfB] using hwf
    have hres' : resolvesBL s.classReg xs = true := by
      simpa [resolvesB] using hres
    have hmdd : modify_dependencies_decode cd remap env s
        (.vlist (encode_items xs)) false
        = (decode_items cd remap env s (encode_items xs) >>= fun p =>
            .ok (.vlist p.1, p.2)) := by
      simp only [modify_dependencies_decode]
      rw [if_neg (by simp [is_gufe_dict])]
    obtain ⟨ws, s', hde, hEe, hcreg, hSI⟩ :=
      decode_sim_items cd cf remap env s xs hxs hres' hS
    refine ⟨.vlist ws, s', ?_, ?_, hcreg, hSI⟩
    · rw [show modify_dependencies_encode (.vlist xs) false
          = .vlist (encode_items xs) from by
        simp only [modify_dependencies_encode, is_gufe_obj, Bool.false_and,
          if_neg, Bool.false_eq_true, not_false_iff]]
      rw [hmdd, except_bind_ok hde]
    · simp only [modify_dependencies_encode, is_gufe_obj, Bool.false_and,
        if_neg, Bool.false_eq_true, not_false_iff]
      rw [hEe]
  | s, .vnone => fun _ _ hS => ⟨.vnone, s, rfl, rfl, rfl, hS⟩
  | s, .vbool b => fun _ _ hS => ⟨.vbool b, s, rfl, rfl, rfl, hS⟩
  | s, .vint n => fun _ _ hS => ⟨.vint n, s, rfl, rfl, rfl, hS⟩
  | s, .vstr t => fun _ _ hS => ⟨.vstr t, s, rfl, rfl, rfl, hS⟩
  | s, .vkeystr p d => fun h _ _ => absurd h (by simp [wfB])

/-- Entrywise deep-decode simulation over an encoded entry list. -/
theorem decode_sim_entries (cd : String → String → List (String × GVal))
    (cf : String → String → List String)
    (remap env : List ((String × String) × (String × String))) :
    ∀ (s : SysState) (es : List (String × GVal)),
      wfBE cd cf es = true → resolvesBE s.classReg es = true → StateInv cd cf s →
      ∃ ws s', decode_entries cd remap env s (encode_entries es) = .ok (ws, s')
        ∧ encode_entries ws = encode_entries es
        ∧ s'.classReg = s.classReg
        ∧ StateInv cd cf s'
  | s, [] => fun _ _ hS => ⟨[], s, rfl, rfl, rfl, hS⟩
  | s, (k, v) :: r => fun hwf hres hS => by
    have hwf' : wfB cd cf v = true ∧ wfBE cd cf r = true := by
      simpa [wfBE, Bool.and_eq_true] using hwf
    have hres' : resolvesB s.classReg v = true ∧ resolvesBE s.classReg r = true := by
      simpa [resolvesBE, Bool.and_eq_true] using hres
    obtain ⟨w, s1, hw, hEw, hcr1, hS1⟩ :=
      decode_sim_val cd cf remap env s v hwf'.1 hres'.1 hS
    have hresr : resolvesBE s1.classReg r = true := by
      rw [hcr1]
      exact hres'.2
    obtain ⟨ws, s2, hws, hEe, hcr2, hS2⟩ :=
      decode_sim_entries cd cf remap env s1 r hwf'.2 hresr hS1
    refine ⟨(k, w) :: ws, s2, ?_, ?_, hcr2.trans hcr1, hS2⟩
    · show decode_entries cd remap env s
        (encode_entries ((k, v) :: r)) = _
      simp only [encode_entries, decode_entries, hw, hws, bind, Except.bind]
    · simp only [encode_entries, hEw, hEe]

/-- Itemwise deep-decode simulation over an encoded item list. -/
theorem decode_sim_items (cd : String → String → List (String × GVal))
    (cf : String → String → List String)
    (remap env : List ((String × String) × (String × String))) :
    ∀ (s : SysState) (xs : List GVal),
      wfBL cd cf xs = true → resolvesBL s.classReg xs = true → StateInv cd cf s →
      ∃ ws s', decode_items cd remap env s (encode_items xs) = .ok (ws, s')
        ∧ encode_items ws = encode_items xs
        ∧ s'.classReg = s.classReg
        ∧ StateInv cd cf s'
  | s, [] => fun _ _ hS => ⟨[], s, rfl, rfl, rfl, hS⟩
  | s, v :: r => fun hwf hres hS => by
    have hwf' : wfB cd cf v = true ∧ wfBL cd cf r = true := by
      simpa [wfBL, Bool.and_eq_true] using hwf
    have hres' : resolvesB s.classReg v = true ∧ resolvesBL s.classReg r = true := by
      simpa [resolvesBL, Bool.and_eq_true] using hres
    obtain ⟨w, s1, hw, hEw, hcr1, hS1⟩ :=
      decode_sim_val cd cf remap env s v hwf'.1 hres'.1 hS
    have hresr : resolvesBL s1.classReg r = true := by
      rw [hcr1]
      exact hres'.2
    obtain ⟨ws, s2, hws, hEe, hcr2, hS2⟩ :=
      decode_sim_items cd cf remap env s1 r hwf'.2 hresr hS1
    refine ⟨w :: ws, s2, ?_, ?_, hcr2.trans hcr1, hS2⟩
    · show decode_items cd remap env s (encode_items (v :: r)) = _
      simp only [encode_items, decode_items, hw, hws, bind, Except.bind]
    · simp only [encode_items, hEw, hEe]

end

theorem decode_entries_append_ok {cd : String → String → List (String × GVal)}
    {remap env : List ((String × String) × (String × String))} :
    ∀ {l1 : List (String × GVal)} {s s1 s2 : SysState}
      {l2 ws1 ws2 : List (String × GVal)},
      decode_entries cd remap env s l1 = .ok (ws1, s1) →
      decode_entries cd remap env s1 l2 = .ok (ws2, s2) →
      decode_entries cd remap env s (l1 ++ l2) = .ok (ws1 ++ ws2, s2) := by
  intro l1
  induction l1 with
  | nil =>
    intro s s1 s2 l2 ws1 ws2 h1 h2
    simp only [decode_entries] at h1
    injection h1 with h1'
    injection h1' with ha hb
    subst ha
    subst hb
    simpa using h2
  | cons p r ih =>
    intro s s1 s2 l2 ws1 ws2 h1 h2
    obtain ⟨pk, pv⟩ := p
    cases hm : modify_dependencies_decode cd remap env s pv false with
    | error e =>
      simp only [decode_entries, hm, bind, Except.bind] at h1
      exact Except.noConfusion h1
    | ok pw =>
      obtain ⟨w, sa⟩ := pw
      cases hr : decode_entries cd remap env sa r with
      | error e =>
        simp only [decode_entries, hm, hr, bind, Except.bind] at h1
        exact Except.noConfusion h1
      | ok pr =>
        obtain ⟨rs, sb⟩ := pr
        simp only [decode_entries, hm, hr, bind, Except.bind] at h1
        injection h1 with h1'
        injection h1' with ha hb
        subst ha
        subst hb
        show decode_entries cd remap env s (((pk, pv) :: r) ++ l2) = _
        simp only [List.cons_append, decode_entries, hm, bind, Except.bind]
        rw [show r.append l2 = r ++ l2 from rfl, ih hr h2]

theorem decode_entries_tags {cd : String → String → List (String × GVal)}
    {remap env : List ((String × String) × (String × String))}
    {s : SysState} {m q : String} :
    decode_entries cd remap env s
        [("__qualname__", .vstr q), ("__module__", .vstr m)]
      = .ok ([("__qualname__", .vstr q), ("__module__", .vstr m)], s) := by
  simp [decode_entries, modify_dependencies_decode, is_gufe_dict, bind, Except.bind]

/-- C1.  Round-trip through the full dictionary form: for every
well-formed entity e (canonical entity contract, class tags resolving to
themselves in the class registry, instance registry satisfying its
reachable-state invariant), from_dict(to_dict(e)) succeeds, the decoded
entity compares Python-equal to e under GufeTokenizable.__eq__, and its
gufe key - the identifier - equals e's. -/
theorem C1_to_dict_from_dict_round_trip
    (cd : String → String → List (String × GVal))
    (cf : String → String → List String)
    (remap env : List ((String × String) × (String × String)))
    (s : SysState) (i : Nat) (m q : String) (fs : List (String × GVal))
    (hwf : wfB cd cf (.vobj i m q fs) = true)
    (hres : resolvesB s.classReg (.vobj i m q fs) = true)
    (hS : StateInv cd cf s) :
    ∃ w s2,
      dict_decode_dependencies cd remap env s
          (GufeTokenizable_to_dict cd (.vobj i m q fs) true) = .ok (w, s2)
      ∧ GufeTokenizable_eq cd w (.vobj i m q fs) = .ok true
      ∧ gufe_key cd w = gufe_key cd (.vobj i m q fs) := by
  obtain ⟨hk1, _, hm1, hq1, _, _, hfsw⟩ := wfB_obj_parts hwf
  have hresP : alookup s.classReg (m, q) = some (m, q)
      ∧ resolvesBE s.classReg fs = true := by
    simpa [resolvesB, Bool.and_eq_true, decide_eq_true_eq] using hres
  have hqf : "__qualname__" ∉ fs.map Prod.fst := by rw [hk1]; exact hq1
  have hmf : "__module__" ∉ fs.map Prod.fst := by rw [hk1]; exact hm1
  have hto : GufeTokenizable_to_dict cd (.vobj i m q fs) true
      = .vdict (encode_entries fs
          ++ [("__qualname__", .vstr q), ("__module__", .vstr m)]) := by
    have h1 : GufeTokenizable_to_dict cd (.vobj i m q fs) true
        = dict_encode_dependencies (.vobj i m q fs) := rfl
    rw [h1, dict_encode_eq_walk, enc_obj_append hqf hmf]
  obtain ⟨gs, s1, hde, hEgs, hcr1, hS1⟩ :=
    decode_sim_entries cd cf remap env s fs hfsw hresP.2 hS
  have happ : decode_entries cd remap env s
      (encode_entries fs ++ [("__qualname__", .vstr q), ("__module__", .vstr m)])
      = .ok (gs ++ [("__qualname__", .vstr q), ("__module__", .vstr m)], s1) :=
    decode_entries_append_ok hde decode_entries_tags
  have hwalk : modify_dependencies_decode cd remap env s
      (.vdict (encode_entries fs
        ++ [("__qualname__", .vstr q), ("__module__", .vstr m)])) true
      = .ok (.vdict (gs
          ++ [("__qualname__", .vstr q), ("__module__", .vstr m)]), s1) := by
    have hroot : modify_dependencies_decode cd remap env s
        (.vdict (encode_entries fs
          ++ [("__qualname__", .vstr q), ("__module__", .vstr m)])) true
        = (decode_entries cd remap env s (encode_entries fs
            ++ [("__qualname__", .vstr q), ("__module__", .vstr m)]) >>= fun p =>
              .ok (.vdict p.1, p.2)) := by
      simp only [modify_dependencies_decode]
      rw [if_neg (by simp)]
    rw [hroot, except_bind_ok happ]
  have hcls1 : alookup s1.classReg (m, q) = some (m, q) := by
    rw [hcr1]
    exact hresP.1
  obtain ⟨w, s2, hfd, hshape, hEncw, hkeyw, _, _⟩ :=
    from_dict_built hwf hcls1 hS1 hEgs
  have hdd : dict_decode_dependencies cd remap env s
      (GufeTokenizable_to_dict cd (.vobj i m q fs) true) = .ok (w, s2) := by
    rw [hto]
    simp only [dict_decode_dependencies]
    rw [except_bind_ok hwalk]
    exact hfd
  obtain ⟨iw, fsw, hwshape⟩ := hshape
  subst hwshape
  have hXX : GufeTokenizable_to_dict cd (.vobj iw m q fsw) true
      = GufeTokenizable_to_dict cd (.vobj i m q fs) true := by
    have h1 : GufeTokenizable_to_dict cd (.vobj iw m q fsw) true
        = dict_encode_dependencies (.vobj iw m q fsw) := rfl
    have h2 : GufeTokenizable_to_dict cd (.vobj i m q fs) true
        = dict_encode_dependencies (.vobj i m q fs) := rfl
    rw [h1, h2, dict_encode_eq_walk, dict_encode_eq_walk]
    exact hEncw
  have hndY : nodupDeepB (GufeTokenizable_to_dict cd (.vobj i m q fs) true)
      = true := by
    have h2 : GufeTokenizable_to_dict cd (.vobj i m q fs) true
        = dict_encode_dependencies (.vobj i m q fs) := rfl
    rw [h2, dict_encode_eq_walk]
    exact encW_nodupDeep cd cf _ hwf
  have heq : GufeTokenizable_eq cd (.vobj iw m q fsw) (.vobj i m q fs)
      = .ok true := by
    simp only [GufeTokenizable_eq]
    rw [if_pos ⟨trivial, trivial⟩, hXX, pyEq_refl hndY]
  exact ⟨.vobj iw m q fsw, s2, hdd, heq, hkeyw⟩

/-- A one-field class layout for the round-trip scenario. -/
def cfC1 : String → String → List String := fun _ _ => ["x"]

/-- A concrete entity of class M.C with one integer field. -/
def eC1 : GVal := .vobj 7 "M" "C" [("x", .vint 3)]

/-- A state with class M.C self-registered and an empty instance
registry. -/
def sC1 : SysState := ⟨[(("M", "C"), ("M", "C"))], [], 0⟩

/-- C1 witness: the round-trip theorem applied to the concrete entity
eC1 in state sC1, the well-formedness and resolution hypotheses evaluated
by decide and the instance-registry invariant holding vacuously. -/
theorem C1_to_dict_from_dict_round_trip_witness :
    (wfB cdNone cfC1 eC1 = true ∧ resolvesB sC1.classReg eC1 = true)
    ∧ ∃ w s2,
        dict_decode_dependencies cdNone [] [] sC1
            (GufeTokenizable_to_dict cdNone eC1 true) = .ok (w, s2)
        ∧ GufeTokenizable_eq cdNone w eC1 = .ok true
        ∧ gufe_key cdNone w = gufe_key cdNone eC1 :=
  ⟨⟨by decide, by decide⟩,
    C1_to_dict_from_dict_round_trip cdNone cfC1 [] [] sC1 7 "M" "C"
      [("x", .vint 3)] (by decide) (by decide)
      (fun p hp => absurd hp (List.not_mem_nil p))⟩
